import Mathlib

/-
  Verification of the spatial-simulation and turn-processing core of the
  OpenDungeons GameMap (src/source/GameMap.cpp) against its natural-language
  specification.  The C++ code is shallowly embedded: tiles are identified by
  their integer grid coordinates, the tile grid is a total assignment of tile
  data on a rectangular area (as produced by GameMap::createNewMap), mutable
  state (flood-fill colors, creature lists, deletion queues) is passed
  explicitly, and unbounded C++ loops are expressed with an explicit fuel that
  the wrappers instantiate with a bound sufficient for the loop in question.
-/

set_option genSizeOf false
set_option genSizeOfSpec false
set_option genInjectivity false

namespace OD

/-- The traversal classes of Tile::TileClearType used throughout
GameMap.cpp (walkable / flyable / diggable / impassable). -/
inductive TileClearType where
  | impassableTile
  | walkableTile
  | flyableTile
  | diggableTile
deriving DecidableEq

/-- Static data carried by one tile.  Modelled from the spec: Tile.cpp is not
among the given sources; per the spec the passability class is a pure function
of the tile type and fullness, vision permission and per-faction diggability
are likewise pure per-tile attributes, so we carry the derived values
directly. -/
structure TileData where
  passability : TileClearType
  permitsVision : Bool
  diggable : Int → Bool

/-- The tile grid.  GameMap::createNewMap allocates a full mMapSizeX by
mMapSizeY grid of tiles; GameMap::getTile returns NULL outside it. -/
structure GameMap where
  mMapSizeX : Nat
  mMapSizeY : Nat
  tileAt : Nat → Nat → TileData

/-- GameMap::getTile: the tile at integer coordinates (x, y), or none when no
such tile exists on the grid. -/
def GameMap.getTile (gm : GameMap) (x y : Int) : Option TileData :=
  if 0 ≤ x ∧ x < gm.mMapSizeX ∧ 0 ≤ y ∧ y < gm.mMapSizeY then
    some (gm.tileAt x.toNat y.toNat)
  else
    none

/-- A tile reference in a returned path: the C++ code returns Tile pointers,
and the grid owns exactly one tile per coordinate pair, so tile identity is
coordinate identity. -/
abbrev Coord := Int × Int

/-- Tile::getAllNeighbors / GameMap::neighborTiles.  Modelled from the spec:
the neighbor lists are filled by setTileNeighbors (not among the sources); the
spec fixes 4-connectivity (Manhattan-optimal paths with no diagonals, a
4-connected line of sight), so the neighbors of a tile are the existing tiles
one step away in the four cardinal directions. -/
def GameMap.neighborCoords (gm : GameMap) (x y : Int) : List Coord :=
  [(x - 1, y), (x + 1, y), (x, y - 1), (x, y + 1)].filter
    (fun p => (gm.getTile p.1 p.2).isSome)

/-- The passability class of the tile at a coordinate.  Only applied to
coordinates of existing tiles (the C++ dereferences a Tile pointer);
a missing tile is mapped to impassable. -/
def GameMap.passabilityAt (gm : GameMap) (p : Coord) : TileClearType :=
  match gm.getTile p.1 p.2 with
  | some t => t.passability
  | none => TileClearType.impassableTile

/-- Whether the tile at a coordinate exists and permits vision
(Tile::permitsVision applied through GameMap::getTile). -/
def GameMap.permitsVisionAt (gm : GameMap) (p : Coord) : Bool :=
  match gm.getTile p.1 p.2 with
  | some t => t.permitsVision
  | none => false

/-- Whether the tile at a coordinate exists and is diggable by the given
faction color (Tile::isDiggable). -/
def GameMap.diggableAt (gm : GameMap) (p : Coord) (color : Int) : Bool :=
  match gm.getTile p.1 p.2 with
  | some t => t.diggable color
  | none => false

/-! ### GameMap::lineOfSight (GameMap.cpp lines 1156-1253)

A Bresenham-family stepper.  The C++ for-loop `for (x = x0; x != x1; x += xstep)`
takes exactly |x1 - x0| steps after the sign normalisation of Dx, so the loop
is translated with that number as structural fuel.  Stepping onto a
non-existent tile aborts the whole trace and returns the empty path
(`path.clear(); return path;`), which the loop signals here with none. -/

/-- One translation of the body of the lineOfSight pixel loop.  State: the
loop variables x and y, the accumulated error E and the emitted path. -/
def losLoop (gm : GameMap) (steep : Bool) (xstep ystep TwoDy TwoDyTwoDx : Int) :
    Nat → Int → Int → Int → List Coord → Option (List Coord)
  | 0, _, _, _, acc => some acc
  | fuel + 1, x, y, E, acc =>
    let xDraw := if steep then y else x
    let yDraw := if steep then x else y
    match gm.getTile xDraw yDraw with
    | none => none
    | some _ =>
      let acc := acc ++ [(xDraw, yDraw)]
      if E > 0 then
        match gm.getTile (xDraw + 1) y with
        | none => none
        | some _ =>
          losLoop gm steep xstep ystep TwoDy TwoDyTwoDx fuel
            (x + xstep) (y + ystep) (E + TwoDyTwoDx) (acc ++ [(xDraw + 1, y)])
      else
        losLoop gm steep xstep ystep TwoDy TwoDyTwoDx fuel
          (x + xstep) y (E + TwoDy) acc

/-- GameMap::lineOfSight: discrete 4-connected line trace from (x0, y0) to
(x1, y1); returns the empty list when the trace steps onto a missing tile. -/
def GameMap.lineOfSight (gm : GameMap) (x0 y0 x1 y1 : Int) : List Coord :=
  let Dx := x1 - x0
  let Dy := y1 - y0
  let steep : Bool := Dy.natAbs ≥ Dx.natAbs
  -- if steep, swap the roles of the x and y coordinates and recompute
  let x0' := if steep then y0 else x0
  let y0' := if steep then x0 else y0
  let x1' := if steep then y1 else x1
  let y1' := if steep then x1 else y1
  let Dx' := x1' - x0'
  let Dy' := y1' - y0'
  let xstep : Int := if Dx' < 0 then -1 else 1
  let Dx'' := if Dx' < 0 then -Dx' else Dx'
  let ystep : Int := if Dy' < 0 then -1 else 1
  let Dy'' := if Dy' < 0 then -Dy' else Dy'
  let TwoDy := 2 * Dy''
  let TwoDyTwoDx := TwoDy - 2 * Dx''
  let E := TwoDy - Dx''
  match losLoop gm steep xstep ystep TwoDy TwoDyTwoDx (x1' - x0').natAbs x0' y0' E [] with
  | none => []
  | some l => l

/-! ### GameMap::pathIsClear (GameMap.cpp lines 1403-1445)

Reduces a tile path to a boolean under the per-class admissibility rules.  The
C++ loop accumulates `isClear` as a conjunction over the path (the loop stops
as soon as it turns false, which does not change the resulting value), so on a
non-empty path the walkable and flyable cases are the conjunction over all
tiles, the impassable case is false, and the remaining (diggable) class falls
into the switch's default branch, which terminates the process with exit(1) -
represented by none. -/

/-- GameMap::pathIsClear.  Returns none exactly when the C++ would hit the
fatal unhandled-class branch (a non-empty path with the diggable class). -/
def GameMap.pathIsClear (gm : GameMap) (path : List Coord) (passability : TileClearType) :
    Option Bool :=
  match path with
  | [] => some false
  | _ :: _ =>
    match passability with
    | TileClearType.walkableTile =>
        some (path.all fun p => gm.passabilityAt p == TileClearType.walkableTile)
    | TileClearType.flyableTile =>
        some (path.all fun p =>
          gm.passabilityAt p == TileClearType.walkableTile
            || gm.passabilityAt p == TileClearType.flyableTile)
    | TileClearType.impassableTile => some false
    | TileClearType.diggableTile => none

/-! ### GameMap::cutCorners (GameMap.cpp lines 1447-1499)

Path smoothing over a std::list of tiles.  Iterators are translated to
positions in the list: t1 is position i, the inner loop advances t2 from
position i+1 while the line of sight from t1 to t2 is clear, and
`path.erase(t3, t4)` with t3 = t1+1 and t4 = t2-1 removes the half-open
position range [i+1, j-1) - note the element just before t2 survives.  Both
loops are expressed with fuel; the wrappers pass length-derived bounds that
are never exhausted (fuel exhaustion returns none, as does the fatal
pathIsClear configuration error). -/

/-- The inner `while (t2 != path.end())` loop of cutCorners: starting from
position j, keep advancing while pathIsClear of the lineOfSight from the tile
at position i to the tile at position j holds.  Returns the final position of
t2, or none on a fatal pathIsClear error or fuel exhaustion. -/
def cutCornersAdvance (gm : GameMap) (passability : TileClearType) (l : List Coord)
    (i : Nat) : Nat → Nat → Option Nat
  | 0, _ => none
  | fuel + 1, j =>
    if j < l.length then
      let t1 := l.getD i (0, 0)
      let t2 := l.getD j (0, 0)
      match gm.pathIsClear (gm.lineOfSight t1.1 t1.2 t2.1 t2.2) passability with
      | none => none
      | some true => cutCornersAdvance gm passability l i fuel (j + 1)
      | some false => some j
    else
      some j

/-- The outer `while (t1 != path.end())` loop of cutCorners.  One iteration
advances t2 to position j, erases positions [i+1, j-1) (a no-op when j ≤ i+1,
matching the t3/t4 guards), and continues with t1 at the position t2 now
occupies. -/
def cutCornersGo (gm : GameMap) (passability : TileClearType) :
    Nat → List Coord → Nat → Option (List Coord)
  | 0, _, _ => none
  | fuel + 1, l, i =>
    if i < l.length then
      match cutCornersAdvance gm passability l i (l.length + 1) (i + 1) with
      | none => none
      | some j =>
        let l2 := if i + 2 ≤ j then l.take (i + 1) ++ l.drop (j - 1) else l
        cutCornersGo gm passability fuel l2 (min j (i + 2))
    else
      some l

/-- GameMap::cutCorners.  Paths of length at most 3 are returned unchanged
(the early `if (path.size() <= 3) return;`). -/
def GameMap.cutCorners (gm : GameMap) (path : List Coord) (passability : TileClearType) :
    Option (List Coord) :=
  if path.length ≤ 3 then
    some path
  else
    cutCornersGo gm passability (path.length + 1) path 0

/-- A fully-open n by m grid of walkable, transparent, diggable dirt tiles,
as produced by GameMap::createNewMap followed by no terrain edits.  Used as
the concrete map of several witnesses. -/
def openGrid (n m : Nat) : GameMap :=
  { mMapSizeX := n
    mMapSizeY := m
    tileAt := fun _ _ => ⟨TileClearType.walkableTile, true, fun _ => true⟩ }

/-! ### Properties of cutCorners -/

/-- The inner lookahead loop only moves t2 forward and never past the end of
the path. -/
theorem cutCornersAdvance_le (gm : GameMap) (passability : TileClearType)
    (l : List Coord) (i : Nat) :
    ∀ fuel j j', j ≤ l.length →
      cutCornersAdvance gm passability l i fuel j = some j' →
      j ≤ j' ∧ j' ≤ l.length := by
  intro fuel
  induction fuel with
  | zero =>
    intro j j' _ h
    simp [cutCornersAdvance] at h
  | succ n ih =>
    intro j j' hj h
    simp only [cutCornersAdvance] at h
    split at h
    · split at h
      · exact absurd h (by simp)
      · rename_i heq
        have := ih (j + 1) j' (by omega) h
        omega
      · rename_i heq
        cases h
        omega
    · cases h
      omega

/-- One pass of the outer cutCorners loop, and hence the whole of it, never
lengthens the path and preserves its first and last elements. -/
theorem cutCornersGo_spec (gm : GameMap) (passability : TileClearType) :
    ∀ fuel l i out, cutCornersGo gm passability fuel l i = some out →
      out.length ≤ l.length ∧ out.head? = l.head? ∧ out.getLast? = l.getLast? := by
  intro fuel
  induction fuel with
  | zero =>
    intro l i out h
    simp [cutCornersGo] at h
  | succ n ih =>
    intro l i out h
    simp only [cutCornersGo] at h
    split at h
    · rename_i hi
      split at h
      · exact absurd h (by simp)
      · rename_i j hadv
        have hjb := cutCornersAdvance_le gm passability l i _ _ _ (by omega) hadv
        have hlnil : l ≠ [] := by
          intro hcon
          rw [hcon] at hi
          simp at hi
        have h2 := ih _ _ _ h
        by_cases hij : i + 2 ≤ j
        · rw [if_pos hij] at h2
          have hhead : (l.take (i + 1) ++ l.drop (j - 1)).head? = l.head? := by
            rw [List.head?_append, List.head?_take]
            have : ¬ (i + 1 = 0) := by omega
            rw [if_neg this]
            cases l with
            | nil => exact absurd rfl hlnil
            | cons a l' => simp
          have hlast : (l.take (i + 1) ++ l.drop (j - 1)).getLast? = l.getLast? := by
            rw [List.getLast?_append, List.getLast?_drop]
            have : ¬ (l.length ≤ j - 1) := by omega
            rw [if_neg this]
            have : l.getLast? = some (l.getLast hlnil) := List.getLast?_eq_getLast l hlnil
            rw [this]
            simp
          have hlen : (l.take (i + 1) ++ l.drop (j - 1)).length ≤ l.length := by
            rw [List.length_append, List.length_take, List.length_drop]
            omega
          obtain ⟨h2a, h2b, h2c⟩ := h2
          exact ⟨le_trans h2a hlen, h2b.trans hhead, h2c.trans hlast⟩
        · rw [if_neg hij] at h2
          exact h2
    · cases h
      exact ⟨le_refl _, rfl, rfl⟩

/-- Claim C6: for every tile path and every passability class, whenever
cutCorners completes (it terminates the process on the fatal unhandled-class
configuration error), it never increases the number of tiles in the path and
preserves the path's first and last tile; and any path of length at most 3 is
returned entirely unchanged. -/
theorem C6_cutCorners_shrink_preserve (gm : GameMap) (passability : TileClearType)
    (path : List Coord) :
    (∀ out, gm.cutCorners path passability = some out →
      out.length ≤ path.length ∧ out.head? = path.head? ∧ out.getLast? = path.getLast?)
    ∧ (path.length ≤ 3 → gm.cutCorners path passability = some path) := by
  constructor
  · intro out h
    unfold GameMap.cutCorners at h
    split at h
    · cases h
      exact ⟨le_refl _, rfl, rfl⟩
    · exact cutCornersGo_spec gm passability _ _ _ _ h
  · intro h3
    simp [GameMap.cutCorners, h3]

/-- Witness for C6: on the fully-open 5 by 5 grid the dog-leg path
(0,0)-(1,0)-(2,0)-(2,1)-(2,2) is smoothed to [(0,0), (2,2)], which indeed is
no longer and keeps the endpoints; the hypotheses of the claim theorem are
discharged on this concrete input. -/
theorem C6_cutCorners_shrink_preserve_witness :
    ([((0 : Int), (0 : Int)), (2, 2)] : List Coord).length ≤
        ([((0 : Int), (0 : Int)), (1, 0), (2, 0), (2, 1), (2, 2)] : List Coord).length ∧
      ([((0 : Int), (0 : Int)), (2, 2)] : List Coord).head? =
        ([((0 : Int), (0 : Int)), (1, 0), (2, 0), (2, 1), (2, 2)] : List Coord).head? ∧
      ([((0 : Int), (0 : Int)), (2, 2)] : List Coord).getLast? =
        ([((0 : Int), (0 : Int)), (1, 0), (2, 0), (2, 1), (2, 2)] : List Coord).getLast? :=
  (C6_cutCorners_shrink_preserve (openGrid 5 5) TileClearType.walkableTile
      [(0, 0), (1, 0), (2, 0), (2, 1), (2, 2)]).1
    [(0, 0), (2, 2)] (by decide)

/-! ### Properties of lineOfSight (claim C4) -/

/-- Counterexample to claim C4: on the fully-open 3 by 3 grid (every tile
stepped on exists), lineOfSight(0,0 -> 2,0) returns [(0,0),(1,0)] while
lineOfSight(2,0 -> 0,0) returns [(2,0),(1,0)]; the two sequences are not
exact reverses of each other, because the stepping loop
`for (x = x0; x != x1; x += xstep)` never emits the goal tile. -/
theorem C4_lineOfSight_not_reversal :
    (openGrid 3 3).lineOfSight 0 0 2 0 ≠
      ((openGrid 3 3).lineOfSight 2 0 0 0).reverse := by
  decide

/-- Claim C4 as amended: the two tile sequences produced by lineOfSight(a,b)
and lineOfSight(b,a) are exact reverses of each other only in the degenerate
case a = b, where both calls return the empty sequence (the stepper excludes
its goal tile, so for distinct endpoints the forward sequence omits b while
the reversed backward sequence contains it). -/
theorem C4_lineOfSight_reversal_degenerate (gm : GameMap) (x y : Int) :
    gm.lineOfSight x y x y = [] ∧
      (gm.lineOfSight x y x y).reverse = gm.lineOfSight x y x y := by
  have h : gm.lineOfSight x y x y = [] := by
    simp [GameMap.lineOfSight, losLoop]
  exact ⟨h, by rw [h]; rfl⟩

/-! ### Rooms, seats and treasuries -/

/-- The Room::RoomType values that the verified code paths distinguish. -/
inductive RoomType where
  | dungeonTemple
  | treasury
  | otherRoom
deriving DecidableEq

/-- A room: its type, owning faction color, number of covered tiles, and (for
treasuries) the gold it holds.  The gold field stands for the state that
RoomTreasury (not among the sources) keeps per treasury. -/
structure Room where
  roomType : RoomType
  color : Int
  numCoveredTiles : Nat
  gold : Int

/-- Per-faction bookkeeping (Seat).  Only the fields the verified code paths
read or write are carried. -/
structure Seat where
  color : Int
  gold : Int
  mNumCreaturesControlled : Int

/-- GameMap::getRoomsByType (GameMap.cpp lines 1548-1558). -/
def getRoomsByType (rooms : List Room) (t : RoomType) : List Room :=
  rooms.filter (fun r => r.roomType == t)

/-- GameMap::getRoomsByTypeAndColor (GameMap.cpp lines 1560-1570). -/
def getRoomsByTypeAndColor (rooms : List Room) (t : RoomType) (color : Int) : List Room :=
  rooms.filter (fun r => r.roomType == t && r.color == color)

/-- RoomTreasury::withdrawGold.  Modelled from the spec: RoomTreasury.cpp is
not among the sources; per the withdrawal loop's contract the treasury hands
over as much of the request as it holds and reports the amount withdrawn. -/
def withdrawGold (r : Room) (amount : Int) : Int × Room :=
  let w := min amount r.gold
  (w, { r with gold := r.gold - w })

/-- The withdrawal loop of GameMap::withdrawFromTreasuries: walk the
treasuries owned by the seat's color in registration order while gold is
still needed.  Walking the full room list and acting only on matching
treasuries visits exactly the rooms of getRoomsByTypeAndColor in order. -/
def withdrawLoop (color : Int) : List Room → Int → List Room
  | [], _ => []
  | r :: rest, needed =>
    if r.roomType = RoomType.treasury ∧ r.color = color ∧ needed > 0 then
      let res := withdrawGold r needed
      res.2 :: withdrawLoop color rest (needed - res.1)
    else
      r :: withdrawLoop color rest needed

/-- GameMap::withdrawFromTreasuries (GameMap.cpp lines 1685-1700): refuse
(returning false, touching nothing) when the seat's available gold is short of
the request, otherwise drain treasuries and return true. -/
def withdrawFromTreasuries (rooms : List Room) (gold : Int) (seat : Seat) :
    Bool × List Room :=
  if seat.gold < gold then
    (false, rooms)
  else
    (true, withdrawLoop seat.color rooms gold)

/-- Claim C10: for every seat and requested amount, if the seat's available
gold is less than the request then withdrawFromTreasuries returns false with
the gold content of every treasury unchanged; otherwise it returns true. -/
theorem C10_withdrawFromTreasuries_spec (rooms : List Room) (gold : Int) (seat : Seat) :
    (seat.gold < gold → withdrawFromTreasuries rooms gold seat = (false, rooms)) ∧
      (¬ seat.gold < gold → (withdrawFromTreasuries rooms gold seat).1 = true) := by
  constructor
  · intro h
    simp [withdrawFromTreasuries, h]
  · intro h
    simp [withdrawFromTreasuries, h]

/-- Witness for C10 at a concrete state: a seat with 5 gold asked for 10
fails with the single 5-gold treasury untouched, and the same seat asked for
3 succeeds. -/
theorem C10_withdrawFromTreasuries_spec_witness :
    (withdrawFromTreasuries [⟨RoomType.treasury, 1, 4, 5⟩] 10 ⟨1, 5, 0⟩ =
        (false, [⟨RoomType.treasury, 1, 4, 5⟩])) ∧
      (withdrawFromTreasuries [⟨RoomType.treasury, 1, 4, 5⟩] 3 ⟨1, 5, 0⟩).1 = true := by
  constructor
  · exact (C10_withdrawFromTreasuries_spec [⟨RoomType.treasury, 1, 4, 5⟩] 10 ⟨1, 5, 0⟩).1
      (by decide)
  · exact (C10_withdrawFromTreasuries_spec [⟨RoomType.treasury, 1, 4, 5⟩] 3 ⟨1, 5, 0⟩).2
      (by decide)

/-! ### GameMap::visibleTiles (GameMap.cpp lines 1255-1344)

The candidate queue is built from the TileCoordinateMap's spiral-ordered
offset table, stopping at the first offset whose squared radius exceeds
`(int)(sightRadius * sightRadius)`; each existing candidate tile enters the
queue with its precomputed polar angle.  The queue is then processed in order:
a transparent tile is accepted; an opaque tile is accepted and culls every
later queued tile whose angle lies in the angular wedge derived from the
opaque tile's offset.  TileCoordinateMap and RadialVector2 are not among the
sources and their geometry is floating point, so the offset table is a list
parameter and the wedge test (RadialVector2::directionIsBetween against the
bounds built from the obstructing tile's direction and width 1.5/sqrt(rsq))
is an opaque boolean parameter of the obstructing tile's offset from the
origin and the queued tile's angle; every theorem below holds for all
instantiations of both. -/

/-- One entry of the precomputed spiral offset table (TileCoordinateMap):
relative offset and precomputed central polar angle.  The squared radius the
C++ stores alongside is dx*dx + dy*dy. -/
structure SpiralEntry where
  dx : Int
  dy : Int
  theta : ℚ

/-- The candidate queue: walk the spiral table up to the first offset whose
squared radius exceeds the bound, keeping the existing tiles paired with
their angles. -/
def buildTileQueue (gm : GameMap) (coordMap : List SpiralEntry) (startX startY : Int)
    (sightRadiusSquared : Int) : List (Coord × ℚ) :=
  (coordMap.takeWhile fun e => e.dx * e.dx + e.dy * e.dy ≤ sightRadiusSquared).filterMap
    fun e =>
      match gm.getTile (startX + e.dx) (startY + e.dy) with
      | some _ => some ((startX + e.dx, startY + e.dy), e.theta)
      | none => none

/-- The processing loop of visibleTiles: accept the head of the queue; if it
is opaque, additionally cull every remaining queued tile whose angle falls in
the wedge the obstructing tile subtends.  The loop removes at least the head
of the queue on each iteration, so the queue length bounds the iteration
count and serves as structural fuel. -/
def processTileQueueGo (gm : GameMap) (obscured : Int → Int → ℚ → Bool)
    (startX startY : Int) : Nat → List (Coord × ℚ) → List Coord
  | _, [] => []
  | 0, _ :: _ => []
  | n + 1, (t, _) :: rest =>
    if gm.permitsVisionAt t then
      t :: processTileQueueGo gm obscured startX startY n rest
    else
      t :: processTileQueueGo gm obscured startX startY n
        (rest.filter fun p => !obscured (t.1 - startX) (t.2 - startY) p.2)

/-- The processing loop at its natural fuel (the initial queue length). -/
def processTileQueue (gm : GameMap) (obscured : Int → Int → ℚ → Bool)
    (startX startY : Int) (q : List (Coord × ℚ)) : List Coord :=
  processTileQueueGo gm obscured startX startY q.length q

/-- GameMap::visibleTiles: empty when the origin itself does not permit
vision, otherwise the processed candidate queue.  `(int)(sightRadius *
sightRadius)` truncates a non-negative square toward zero, i.e. takes its
floor. -/
def GameMap.visibleTiles (gm : GameMap) (obscured : Int → Int → ℚ → Bool)
    (coordMap : List SpiralEntry) (startX startY : Int) (sightRadius : ℚ) : List Coord :=
  if gm.permitsVisionAt (startX, startY) then
    processTileQueue gm obscured startX startY
      (buildTileQueue gm coordMap startX startY ⌊sightRadius * sightRadius⌋)
  else
    []

/-- Weakening the predicate of takeWhile only extends the kept prefix. -/
theorem takeWhile_mono_ext {α : Type} (p q : α → Bool) (hpq : ∀ a, p a = true → q a = true) :
    ∀ l : List α, ∃ ext, l.takeWhile q = l.takeWhile p ++ ext := by
  intro l
  induction l with
  | nil => exact ⟨[], rfl⟩
  | cons a l ih =>
    by_cases hp : p a = true
    · obtain ⟨ext, hext⟩ := ih
      refine ⟨ext, ?_⟩
      rw [List.takeWhile_cons, List.takeWhile_cons, hp, hpq a hp]
      simp [hext]
    · refine ⟨(a :: l).takeWhile q, ?_⟩
      rw [List.takeWhile_cons]
      simp [Bool.not_eq_true] at hp
      simp [hp]

/-- Any fuel of at least the queue length computes the same result as any
other: the loop consumes at least one queue element per unit of fuel. -/
theorem processTileQueueGo_congr (gm : GameMap) (obscured : Int → Int → ℚ → Bool)
    (startX startY : Int) :
    ∀ n m q, q.length ≤ n → q.length ≤ m →
      processTileQueueGo gm obscured startX startY n q =
        processTileQueueGo gm obscured startX startY m q := by
  intro n
  induction n with
  | zero =>
    intro m q hn _
    have : q = [] := List.eq_nil_of_length_eq_zero (Nat.le_zero.mp hn)
    subst this
    cases m <;> rfl
  | succ n ih =>
    intro m q hn hm
    match q with
    | [] => cases m <;> rfl
    | (u, θ) :: rest =>
      match m with
      | 0 => simp at hm
      | m + 1 =>
        simp only [List.length_cons, Nat.succ_le_succ_iff] at hn hm
        by_cases hv : gm.permitsVisionAt u = true
        · rw [processTileQueueGo, processTileQueueGo, if_pos hv, if_pos hv,
            ih m rest hn hm]
        · have hf := List.length_filter_le
            (fun p => !obscured (u.1 - startX) (u.2 - startY) p.2) rest
          rw [processTileQueueGo, processTileQueueGo, if_neg hv, if_neg hv,
            ih m _ (le_trans hf hn) (le_trans hf hm)]

/-- Extending the candidate queue on the right can only enlarge the set of
tiles the processing loop accepts: culling decisions made while processing
the common prefix are identical in both runs. -/
theorem processTileQueue_subset_ext (gm : GameMap) (obscured : Int → Int → ℚ → Bool)
    (startX startY : Int) :
    ∀ n q ext, q.length ≤ n → ∀ t,
      t ∈ processTileQueueGo gm obscured startX startY n q →
      t ∈ processTileQueue gm obscured startX startY (q ++ ext) := by
  intro n
  induction n with
  | zero =>
    intro q ext hq t ht
    have : q = [] := List.eq_nil_of_length_eq_zero (Nat.le_zero.mp hq)
    subst this
    simp [processTileQueueGo] at ht
  | succ n ih =>
    intro q ext hq t ht
    match q with
    | [] => simp [processTileQueueGo] at ht
    | (u, θ) :: rest =>
      simp only [List.length_cons, Nat.succ_le_succ_iff] at hq
      rw [List.cons_append]
      unfold processTileQueue
      by_cases hv : gm.permitsVisionAt u = true
      · rw [processTileQueueGo, if_pos hv] at ht
        simp only [List.length_cons]
        rw [processTileQueueGo, if_pos hv]
        rcases List.mem_cons.mp ht with h | h
        · exact List.mem_cons.mpr (Or.inl h)
        · refine List.mem_cons.mpr (Or.inr ?_)
          have := ih rest ext hq t h
          unfold processTileQueue at this
          rwa [processTileQueueGo_congr gm obscured startX startY
            ((rest ++ ext).length) ((u, θ) :: rest ++ ext).length.pred
            (rest ++ ext) (le_refl _) (by simp)] at this
      · rw [processTileQueueGo, if_neg hv] at ht
        simp only [List.length_cons]
        rw [processTileQueueGo, if_neg hv]
        rcases List.mem_cons.mp ht with h | h
        · exact List.mem_cons.mpr (Or.inl h)
        · refine List.mem_cons.mpr (Or.inr ?_)
          rw [List.filter_append]
          have hf := List.length_filter_le
            (fun p => !obscured (u.1 - startX) (u.2 - startY) p.2) rest
          have := ih _ (List.filter
            (fun p => !obscured (u.1 - startX) (u.2 - startY) p.2) ext)
            (le_trans hf hq) t h
          unfold processTileQueue at this
          rwa [processTileQueueGo_congr gm obscured startX startY _
            ((rest ++ ext).length) _ (le_refl _)
            (by
              rw [List.length_append, List.length_append]
              have h1 := List.length_filter_le
                (fun p => !obscured (u.1 - startX) (u.2 - startY) p.2) rest
              have h2 := List.length_filter_le
                (fun p => !obscured (u.1 - startX) (u.2 - startY) p.2) ext
              omega)] at this

/-- Claim C5: for a fixed origin and grid, the set of tiles returned by
visibleTiles is monotone in the radius: everything visible at radius r is
still visible at any larger radius r'.  Stated for non-negative radii (a
sight radius is a distance) and for every instantiation of the spiral table
and of the angular wedge test. -/
theorem C5_visibleTiles_monotone (gm : GameMap) (obscured : Int → Int → ℚ → Bool)
    (coordMap : List SpiralEntry) (startX startY : Int) (r r' : ℚ)
    (h0 : 0 ≤ r) (hr : r < r') :
    ∀ t, t ∈ gm.visibleTiles obscured coordMap startX startY r →
      t ∈ gm.visibleTiles obscured coordMap startX startY r' := by
  intro t ht
  unfold GameMap.visibleTiles at ht ⊢
  by_cases hv : gm.permitsVisionAt (startX, startY) = true
  · rw [if_pos hv] at ht ⊢
    have hsq : r * r ≤ r' * r' := by
      have h0' : (0 : ℚ) ≤ r' := le_trans h0 hr.le
      exact mul_le_mul hr.le hr.le h0 h0'
    have hfloor : (⌊r * r⌋ : Int) ≤ ⌊r' * r'⌋ := Int.floor_le_floor hsq
    obtain ⟨ext, hext⟩ := takeWhile_mono_ext
      (fun e : SpiralEntry => e.dx * e.dx + e.dy * e.dy ≤ ⌊r * r⌋)
      (fun e : SpiralEntry => e.dx * e.dx + e.dy * e.dy ≤ ⌊r' * r'⌋)
      (by
        intro e he
        simp only [decide_eq_true_eq] at he ⊢
        omega)
      coordMap
    have hqueue : buildTileQueue gm coordMap startX startY ⌊r' * r'⌋ =
        buildTileQueue gm coordMap startX startY ⌊r * r⌋ ++
          (ext.filterMap fun e =>
            match gm.getTile (startX + e.dx) (startY + e.dy) with
            | some _ => some ((startX + e.dx, startY + e.dy), e.theta)
            | none => none) := by
      unfold buildTileQueue
      rw [hext, List.filterMap_append]
    rw [hqueue]
    exact processTileQueue_subset_ext gm obscured startX startY _ _ _ (le_refl _) t ht
  · rw [if_neg hv] at ht
    simp at ht

/-- Witness for C5: on the fully-open 3 by 3 grid with a four-entry spiral
table, the tile one step east of the origin is visible at radius 1 and, by
the theorem applied at radii 1 < 2, also at radius 2. -/
theorem C5_visibleTiles_monotone_witness :
    ((2 : Int), (1 : Int)) ∈ (openGrid 3 3).visibleTiles (fun _ _ _ => true)
      [⟨0, 0, 0⟩, ⟨1, 0, 0⟩, ⟨0, 1, 1⟩, ⟨2, 0, 0⟩] 1 1 2 := by
  refine C5_visibleTiles_monotone (openGrid 3 3) (fun _ _ _ => true)
    [⟨0, 0, 0⟩, ⟨1, 0, 0⟩, ⟨0, 1, 1⟩, ⟨2, 0, 0⟩] 1 1 1 2
    (by norm_num) (by norm_num) (2, 1) ?_
  simp only [GameMap.visibleTiles]
  rw [show (⌊(1 : ℚ) * (1 : ℚ)⌋ : Int) = 1 from by norm_num]
  decide

/-! ### The turn driver: GameMap::doTurn, doCreatureTurns, doMiscUpkeep,
processDeletionQueues (GameMap.cpp lines 562-772, 2191-2209)

The embedded game state carries the components these functions read and
write: the live creature collection, the filled seats, the room list and the
deferred entity-deletion queue.  Creature.cpp is not among the sources, so
the per-creature AI step is modelled from the spec's creature lifecycle: a
creature whose health has dropped to or below zero is removed from the live
collection (GameMap::removeCreature) and queued on the deferred deletion
queue (GameMap::queueEntityForDeletion); the AI actions of a living creature
(pathing, visibility, movement, training) do not touch the components
modelled here.  Phase 1 visits the creatures registered when the sweep
starts, per the spec ("no new creatures may be visited mid-sweep"). -/

/-- A creature, reduced to what the turn driver reads: identity, owning
faction color, health (the C++ double, embedded as a rational) and whether
its class is the worker (kobold) class. -/
structure Creature where
  id : Nat
  color : Int
  hp : ℚ
  isWorker : Bool

/-- The mutable GameMap state the turn driver manipulates. -/
structure GameState where
  creatures : List Creature
  filledSeats : List Seat
  rooms : List Room
  entitiesToDelete : List Creature
  nextCreatureId : Nat

/-- Creature::doTurn for the creature with the given id, modelled from the
spec as described above: on death, GameMap::removeCreature erases the first
matching entry of the creature vector and the creature is queued for deferred
deletion. -/
def creatureDoTurn (st : GameState) (cid : Nat) : GameState :=
  match st.creatures.find? (fun c => c.id == cid) with
  | none => st
  | some c =>
    if c.hp ≤ 0 then
      { st with
          creatures := st.creatures.eraseP (fun c' => c'.id == cid)
          entitiesToDelete := st.entitiesToDelete ++ [c] }
    else
      st

/-- GameMap::doCreatureTurns (lines 761-772): run every creature's AI step,
visiting the creatures registered at the start of the phase. -/
def doCreatureTurns (st : GameState) : GameState :=
  (st.creatures.map Creature.id).foldl creatureDoTurn st

/-- The per-color count of worker creatures (the koboldColorCounts map of
doMiscUpkeep, lines 625-636). -/
def koboldColorCount (creatures : List Creature) (col : Int) : Int :=
  (creatures.filter fun c => c.isWorker && c.color == col).length

/-- The per-color count of owned dungeon temples (the
dungeonTempleColorCounts map, lines 638-644). -/
def dungeonTempleColorCount (rooms : List Room) (col : Int) : Int :=
  ((getRoomsByType rooms RoomType.dungeonTemple).filter fun r => r.color == col).length

/-- The per-color worker quota of doMiscUpkeep (lines 646-659):
max(4 * numDungeonTemples - numKobolds, 0) capped at numDungeonTemples. -/
def koboldsNeededPerColor (st : GameState) (col : Int) : Int :=
  min (max (4 * dungeonTempleColorCount st.rooms col -
      koboldColorCount st.creatures col) 0)
    (dungeonTempleColorCount st.rooms col)

/-- The spawn loop of doMiscUpkeep (lines 661-671): walk the dungeon temples
in registration order and let each one produce a kobold while its color still
needs one; returns the color of each triggered produceKobold call, one entry
per triggering temple. -/
def koboldSpawnLoop : List Room → (Int → Int) → List Int
  | [], _ => []
  | temple :: rest, needed =>
    if needed temple.color > 0 then
      temple.color ::
        koboldSpawnLoop rest
          (fun col => if col = temple.color then needed col - 1 else needed col)
    else
      koboldSpawnLoop rest needed

/-- The colors of the produceKobold calls triggered by one upkeep pass on the
given state. -/
def spawnColors (st : GameState) : List Int :=
  koboldSpawnLoop (getRoomsByType st.rooms RoomType.dungeonTemple)
    (koboldsNeededPerColor st)

/-- GameMap::doMiscUpkeep (lines 601-759) restricted to the components of
the model: the seat loop clears every filled seat's controlled-creature
count (line 622); the spawn loop lets temples produce kobolds
(RoomDungeonTemple::produceKobold is not among the sources and is modelled
from the spec: a fresh worker creature of the temple's color joins the live
collection); rooms left with zero covered tiles are removed.  The goal
re-validation, active-object upkeep and mana/gold/claimed-tile recomputation
act on state outside this model (goal lists, treasuries, the tile grid) and
are settled by other claims. -/
def doMiscUpkeep (st : GameState) : GameState :=
  let st1 := { st with
    filledSeats := st.filledSeats.map fun s => { s with mNumCreaturesControlled := 0 } }
  let colors := spawnColors st1
  let newCreatures := colors.enum.map fun ic =>
    { id := st1.nextCreatureId + ic.1, color := ic.2, hp := 10, isWorker := true :
      Creature }
  { st1 with
      creatures := st1.creatures ++ newCreatures
      nextCreatureId := st1.nextCreatureId + colors.length
      rooms := st1.rooms.filter fun r => r.numCoveredTiles ≠ 0 }

/-- The dead-creature sweep's seat update: increment the controlled-creature
count of the (first) filled seat with the given color - the seat of the
creature's controlling player. -/
def incrementSeatByColor : List Seat → Int → List Seat
  | [], _ => []
  | s :: rest, col =>
    if s.color = col then
      { s with mNumCreaturesControlled := s.mNumCreaturesControlled + 1 } :: rest
    else
      s :: incrementSeatByColor rest col

/-- GameMap::doTurn (lines 562-594): creature turns, then misc upkeep, then
the dead-creature sweep, which counts each living creature toward its
controlling player's seat and removes nothing. -/
def doTurn (st : GameState) : GameState :=
  let st1 := doMiscUpkeep (doCreatureTurns st)
  { st1 with
      filledSeats := st1.creatures.foldl
        (fun seats c => if 0 < c.hp then incrementSeatByColor seats c.color else seats)
        st1.filledSeats }

/-- GameMap::processDeletionQueues (lines 2191-2209): drain the deferred
deletion queue, destroying the queued entities. -/
def processDeletionQueues (st : GameState) : GameState :=
  { st with entitiesToDelete := [] }

/-! ### Claim C7: the worker-spawn quota -/

/-- The spawn loop triggers, for each color, exactly
min(max(needed, 0), number of temples of that color) spawns. -/
theorem koboldSpawnLoop_count (col : Int) :
    ∀ (temples : List Room) (needed : Int → Int),
      (((koboldSpawnLoop temples needed).filter fun c => c == col).length : Int) =
        min (max (needed col) 0) ((temples.filter fun r => r.color == col).length : Int) := by
  intro temples
  induction temples with
  | nil =>
    intro needed
    simp [koboldSpawnLoop]
  | cons t rest ih =>
    intro needed
    by_cases hc : t.color = col
    · by_cases hpos : needed t.color > 0
      · rw [koboldSpawnLoop, if_pos hpos]
        have hcol : needed col > 0 := by rwa [hc] at hpos
        have h1 : ((t.color :: koboldSpawnLoop rest
            (fun c => if c = t.color then needed c - 1 else needed c)).filter
              fun c => c == col).length =
            ((koboldSpawnLoop rest
              (fun c => if c = t.color then needed c - 1 else needed c)).filter
                fun c => c == col).length + 1 := by
          rw [List.filter_cons]
          simp [hc]
        have h2 : ((t :: rest).filter fun r => r.color == col).length =
            ((rest.filter fun r => r.color == col).length) + 1 := by
          rw [List.filter_cons]
          simp [hc]
        rw [h1, h2, Nat.cast_add, Nat.cast_add, ih, if_pos hc.symm]
        omega
      · rw [koboldSpawnLoop, if_neg hpos]
        have hcol : ¬ needed col > 0 := by rwa [hc] at hpos
        have h2 : ((t :: rest).filter fun r => r.color == col).length =
            ((rest.filter fun r => r.color == col).length) + 1 := by
          rw [List.filter_cons]
          simp [hc]
        rw [h2, Nat.cast_add, ih]
        have hlen : (0 : Int) ≤ ((rest.filter fun r => r.color == col).length : Int) :=
          Int.natCast_nonneg _
        omega
    · by_cases hpos : needed t.color > 0
      · rw [koboldSpawnLoop, if_pos hpos]
        have h1 : ((t.color :: koboldSpawnLoop rest
            (fun c => if c = t.color then needed c - 1 else needed c)).filter
              fun c => c == col).length =
            ((koboldSpawnLoop rest
              (fun c => if c = t.color then needed c - 1 else needed c)).filter
                fun c => c == col).length := by
          rw [List.filter_cons]
          simp [hc]
        have h2 : ((t :: rest).filter fun r => r.color == col).length =
            (rest.filter fun r => r.color == col).length := by
          rw [List.filter_cons]
          simp [hc]
        rw [h1, h2, ih, if_neg (fun h => hc h.symm)]
      · rw [koboldSpawnLoop, if_neg hpos]
        have h2 : ((t :: rest).filter fun r => r.color == col).length =
            (rest.filter fun r => r.color == col).length := by
          rw [List.filter_cons]
          simp [hc]
        rw [h2, ih]

/-- Claim C7: in one upkeep pass, for each faction color the number of
worker (kobold) spawns triggered equals the quota
min(max(4 * ownedDungeonTemples - currentWorkers, 0), ownedDungeonTemples),
and in particular never exceeds the number of owned temples (each triggering
temple produces at most one kobold, and only temples trigger). -/
theorem C7_kobold_spawn_quota (st : GameState) (col : Int) :
    (((spawnColors st).filter fun c => c == col).length : Int) =
        min (max (4 * dungeonTempleColorCount st.rooms col -
            koboldColorCount st.creatures col) 0)
          (dungeonTempleColorCount st.rooms col) ∧
      (((spawnColors st).filter fun c => c == col).length : Int) ≤
        dungeonTempleColorCount st.rooms col := by
  have h := koboldSpawnLoop_count col (getRoomsByType st.rooms RoomType.dungeonTemple)
    (koboldsNeededPerColor st)
  rw [spawnColors, h]
  unfold koboldsNeededPerColor dungeonTempleColorCount
  constructor
  · omega
  · omega

/-- Witness for C7 at the spec's scenario: a faction owning exactly one
dungeon temple and zero workers triggers exactly one worker spawn
(min(4 * 1 - 0, 1) = 1, not two). -/
theorem C7_kobold_spawn_quota_witness :
    (((spawnColors
        { creatures := []
          filledSeats := [⟨1, 0, 0⟩]
          rooms := [⟨RoomType.dungeonTemple, 1, 4, 0⟩]
          entitiesToDelete := []
          nextCreatureId := 0 }).filter fun c => c == (1 : Int)).length : Int) = 1 :=
  (C7_kobold_spawn_quota
      { creatures := []
        filledSeats := [⟨1, 0, 0⟩]
        rooms := [⟨RoomType.dungeonTemple, 1, 4, 0⟩]
        entitiesToDelete := []
        nextCreatureId := 0 } 1).1.trans (by decide)

/-! ### Claim C1: dead creatures and the deferred deletion queue -/

/-- A creature AI step can only remove creatures from the live collection,
never add any. -/
theorem creatureDoTurn_creatures_subset (st : GameState) (i : Nat) :
    (creatureDoTurn st i).creatures ⊆ st.creatures := by
  unfold creatureDoTurn
  split
  · exact fun x hx => hx
  · split
    · exact (List.eraseP_sublist _).subset
    · exact fun x hx => hx

/-- A creature AI step never removes anything from the deletion queue. -/
theorem creatureDoTurn_queue_mono (st : GameState) (i : Nat) :
    st.entitiesToDelete ⊆ (creatureDoTurn st i).entitiesToDelete := by
  unfold creatureDoTurn
  split
  · exact fun x hx => hx
  · split
    · intro x hx
      simp only [List.mem_append]
      exact Or.inl hx
    · exact fun x hx => hx

/-- A creature AI step leaves the id counter, seats and rooms untouched. -/
theorem creatureDoTurn_frame (st : GameState) (i : Nat) :
    (creatureDoTurn st i).nextCreatureId = st.nextCreatureId ∧
      (creatureDoTurn st i).filledSeats = st.filledSeats ∧
      (creatureDoTurn st i).rooms = st.rooms := by
  unfold creatureDoTurn
  split
  · exact ⟨rfl, rfl, rfl⟩
  · split
    · exact ⟨rfl, rfl, rfl⟩
    · exact ⟨rfl, rfl, rfl⟩

/-- A creature AI step preserves uniqueness of creature ids. -/
theorem creatureDoTurn_pairwise (st : GameState) (i : Nat)
    (h : st.creatures.Pairwise fun a b => a.id ≠ b.id) :
    (creatureDoTurn st i).creatures.Pairwise fun a b => a.id ≠ b.id := by
  unfold creatureDoTurn
  split
  · exact h
  · split
    · exact h.sublist (List.eraseP_sublist _)
    · exact h

/-- In a list of creatures with pairwise distinct ids, find? by the id of a
member returns that member. -/
theorem find?_id_of_mem (c : Creature) :
    ∀ l : List Creature, l.Pairwise (fun a b => a.id ≠ b.id) → c ∈ l →
      l.find? (fun x => x.id == c.id) = some c := by
  intro l
  induction l with
  | nil => intro _ h; simp at h
  | cons a t ih =>
    intro hp hm
    rcases List.mem_cons.mp hm with rfl | hm
    · rw [List.find?_cons_of_pos]
      simp
    · have hne : a.id ≠ c.id := (List.pairwise_cons.mp hp).1 c hm
      rw [List.find?_cons_of_neg]
      · exact ih (List.pairwise_cons.mp hp).2 hm
      · simp [hne]

/-- After erasing the creature with a given id from a list with pairwise
distinct ids, no creature with that id remains. -/
theorem eraseP_id_not_mem (cid : Nat) :
    ∀ l : List Creature, l.Pairwise (fun a b => a.id ≠ b.id) →
      ∀ x ∈ l.eraseP (fun c' => c'.id == cid), x.id ≠ cid := by
  intro l
  induction l with
  | nil => intro _ x hx; simp at hx
  | cons a t ih =>
    intro hp x hx
    by_cases ha : a.id = cid
    · rw [List.eraseP_cons_of_pos (by simp [ha])] at hx
      have := (List.pairwise_cons.mp hp).1 x hx
      omega
    · rw [List.eraseP_cons_of_neg (by simp [ha])] at hx
      rcases List.mem_cons.mp hx with rfl | hx
      · exact ha
      · exact ih (List.pairwise_cons.mp hp).2 x hx

/-- A creature survives the erasure of a different id. -/
theorem mem_eraseP_id_of_ne (c : Creature) (i : Nat) (hne : c.id ≠ i) :
    ∀ l : List Creature, c ∈ l → c ∈ l.eraseP (fun c' => c'.id == i) := by
  intro l
  induction l with
  | nil => intro h; simp at h
  | cons a t ih =>
    intro hm
    by_cases ha : a.id = i
    · rw [List.eraseP_cons_of_pos (by simp [ha])]
      rcases List.mem_cons.mp hm with rfl | hm
      · exact absurd ha hne
      · exact hm
    · rw [List.eraseP_cons_of_neg (by simp [ha])]
      rcases List.mem_cons.mp hm with rfl | hm
      · exact List.mem_cons_self _ _
      · exact List.mem_cons_of_mem _ (ih hm)

/-- The AI step of a dead creature removes it from the live collection and
queues it for deferred deletion. -/
theorem creatureDoTurn_dead (st : GameState) (c : Creature)
    (hp : st.creatures.Pairwise fun a b => a.id ≠ b.id)
    (hm : c ∈ st.creatures) (hd : c.hp ≤ 0) :
    (∀ x ∈ (creatureDoTurn st c.id).creatures, x.id ≠ c.id) ∧
      c ∈ (creatureDoTurn st c.id).entitiesToDelete := by
  unfold creatureDoTurn
  rw [find?_id_of_mem c st.creatures hp hm]
  dsimp only
  rw [if_pos hd]
  refine ⟨eraseP_id_not_mem c.id st.creatures hp, ?_⟩
  simp

/-- Folding AI steps can only shrink the live collection and grow the
deletion queue; the id counter is framed. -/
theorem foldl_creatureDoTurn_frame :
    ∀ (ids : List Nat) (st : GameState),
      (ids.foldl creatureDoTurn st).creatures ⊆ st.creatures ∧
        st.entitiesToDelete ⊆ (ids.foldl creatureDoTurn st).entitiesToDelete ∧
        (ids.foldl creatureDoTurn st).nextCreatureId = st.nextCreatureId ∧
        (ids.foldl creatureDoTurn st).filledSeats = st.filledSeats ∧
        (ids.foldl creatureDoTurn st).rooms = st.rooms := by
  intro ids
  induction ids with
  | nil => exact fun st => ⟨fun x hx => hx, fun x hx => hx, rfl, rfl, rfl⟩
  | cons i rest ih =>
    intro st
    have h1 := creatureDoTurn_creatures_subset st i
    have h2 := creatureDoTurn_queue_mono st i
    obtain ⟨h3, h4, h5⟩ := creatureDoTurn_frame st i
    obtain ⟨g1, g2, g3, g4, g5⟩ := ih (creatureDoTurn st i)
    exact ⟨fun x hx => h1 (g1 hx), fun x hx => g2 (h2 hx), g3.trans h3,
      g4.trans h4, g5.trans h5⟩

/-- Folding AI steps preserves id uniqueness. -/
theorem foldl_creatureDoTurn_pairwise :
    ∀ (ids : List Nat) (st : GameState),
      st.creatures.Pairwise (fun a b => a.id ≠ b.id) →
      (ids.foldl creatureDoTurn st).creatures.Pairwise fun a b => a.id ≠ b.id := by
  intro ids
  induction ids with
  | nil => exact fun st h => h
  | cons i rest ih =>
    intro st h
    exact ih (creatureDoTurn st i) (creatureDoTurn_pairwise st i h)

/-- After folding the AI steps of an id list containing a dead creature's id
over a state containing that creature, the creature is gone from the live
collection and sits on the deletion queue. -/
theorem foldl_creatureDoTurn_dead :
    ∀ (ids : List Nat) (st : GameState) (c : Creature),
      st.creatures.Pairwise (fun a b => a.id ≠ b.id) →
      c ∈ st.creatures → c.hp ≤ 0 → c.id ∈ ids →
      (∀ x ∈ (ids.foldl creatureDoTurn st).creatures, x.id ≠ c.id) ∧
        c ∈ (ids.foldl creatureDoTurn st).entitiesToDelete := by
  intro ids
  induction ids with
  | nil =>
    intro st c _ _ _ hin
    simp at hin
  | cons i rest ih =>
    intro st c hp hm hd hin
    by_cases hi : i = c.id
    · subst hi
      have hstep := creatureDoTurn_dead st c hp hm hd
      obtain ⟨g1, g2, _⟩ := foldl_creatureDoTurn_frame rest (creatureDoTurn st c.id)
      exact ⟨fun x hx => hstep.1 x (g1 hx), g2 hstep.2⟩
    · have hm' : c ∈ (creatureDoTurn st i).creatures := by
        unfold creatureDoTurn
        split
        · exact hm
        · rename_i cfound hfound
          split
          · exact mem_eraseP_id_of_ne c i (fun h => hi h.symm) st.creatures hm
          · exact hm
      have hin' : c.id ∈ rest := by
        rcases List.mem_cons.mp hin with h | h
        · exact absurd h.symm hi
        · exact h
      exact ih (creatureDoTurn st i) c (creatureDoTurn_pairwise st i hp) hm' hd hin'

/-- The number of living creatures of a color: what the dead-creature sweep
adds to that color's seat. -/
def liveControlledCount (creatures : List Creature) (col : Int) : Int :=
  (creatures.filter fun c => decide (0 < c.hp) && c.color == col).length

/-- On seats with pairwise distinct colors, incrementing by color is a map
that touches only the seat of that color. -/
theorem incrementSeatByColor_eq_map (col : Int) :
    ∀ seats : List Seat, seats.Pairwise (fun a b => a.color ≠ b.color) →
      incrementSeatByColor seats col =
        seats.map fun s =>
          if s.color = col then
            { s with mNumCreaturesControlled := s.mNumCreaturesControlled + 1 }
          else s := by
  intro seats
  induction seats with
  | nil => intro _; rfl
  | cons s rest ih =>
    intro hp
    obtain ⟨hhead, htail⟩ := List.pairwise_cons.mp hp
    by_cases hs : s.color = col
    · rw [incrementSeatByColor, if_pos hs]
      simp only [List.map_cons, if_pos hs]
      congr 1
      have hall : ∀ x ∈ rest,
          (if x.color = col then
            ({ x with mNumCreaturesControlled := x.mNumCreaturesControlled + 1 } : Seat)
          else x) = x := by
        intro x hx
        rw [if_neg (fun h => (hhead x hx) (hs.trans h.symm))]
      rw [List.map_congr_left hall]
      exact (List.map_id rest).symm
    · rw [incrementSeatByColor, if_neg hs]
      simp only [List.map_cons, if_neg hs]
      congr 1
      exact ih htail

/-- Incrementing a seat count preserves the seat colors, hence their pairwise
distinctness. -/
theorem incrementSeatByColor_pairwise (col : Int) :
    ∀ seats : List Seat, seats.Pairwise (fun a b => a.color ≠ b.color) →
      (incrementSeatByColor seats col).Pairwise fun a b => a.color ≠ b.color := by
  intro seats hp
  rw [incrementSeatByColor_eq_map col seats hp]
  refine List.Pairwise.map _ ?_ hp
  intro a b hab
  by_cases ha : a.color = col <;> by_cases hb : b.color = col
  · exact absurd (ha.trans hb.symm) hab
  · simp only [if_pos ha, if_neg hb]
    simpa using hab
  · simp only [if_neg ha, if_pos hb]
    simpa using hab
  · simp only [if_neg ha, if_neg hb]
    exact hab

/-- The dead-creature sweep (GameMap.cpp lines 571-590) adds to each seat
exactly the number of living creatures of its color, provided seat colors are
pairwise distinct: dead creatures are skipped and nothing is removed. -/
theorem sweep_counts :
    ∀ (cs : List Creature) (seats : List Seat),
      seats.Pairwise (fun a b => a.color ≠ b.color) →
      cs.foldl
          (fun seats c =>
            if 0 < c.hp then incrementSeatByColor seats c.color else seats)
          seats =
        seats.map fun s =>
          { s with mNumCreaturesControlled :=
              s.mNumCreaturesControlled + liveControlledCount cs s.color } := by
  intro cs
  induction cs with
  | nil =>
    intro seats _
    simp only [List.foldl_nil, liveControlledCount, List.filter_nil,
      List.length_nil, Nat.cast_zero, add_zero]
    exact (List.map_id seats).symm
  | cons c rest ih =>
    intro seats hp
    rw [List.foldl_cons]
    by_cases hlive : 0 < c.hp
    · rw [if_pos hlive,
        ih (incrementSeatByColor seats c.color) (incrementSeatByColor_pairwise c.color seats hp),
        incrementSeatByColor_eq_map c.color seats hp, List.map_map]
      refine List.map_congr_left ?_
      intro s _
      simp only [Function.comp_apply]
      by_cases hc : s.color = c.color
      · rw [if_pos hc]
        have hfil : liveControlledCount (c :: rest) s.color =
            liveControlledCount rest s.color + 1 := by
          unfold liveControlledCount
          rw [List.filter_cons, if_pos (by simp [hlive, hc.symm])]
          simp [add_comm]
        rw [hfil]
        simp only []
        congr 1
        ring
      · rw [if_neg hc]
        have hfil : liveControlledCount (c :: rest) s.color =
            liveControlledCount rest s.color := by
          unfold liveControlledCount
          rw [List.filter_cons, if_neg (by simp [hc]; intro h; exact fun hcc => hc hcc.symm)]
        rw [hfil]
    · rw [if_neg hlive, ih seats hp]
      refine List.map_congr_left ?_
      intro s _
      have hfil : liveControlledCount (c :: rest) s.color =
          liveControlledCount rest s.color := by
        unfold liveControlledCount
        rw [List.filter_cons, if_neg (by simp [hlive])]
      rw [hfil]

/-- Claim C1: a creature whose health is at most 0 when doTurn() runs is
excluded from its owning seat's controlled-creature count for that turn
(every seat's count equals the number of living creatures of its color);
after that doTurn() and the subsequent deletion-queue flush the creature is
absent from the live creature enumeration, its removal having been deferred
to the deletion queue - the counting sweep itself removes nothing (the
creature list after doTurn is exactly the list the sweep iterated over). -/
theorem C1_dead_creature_deferred (st : GameState) (c : Creature)
    (hm : c ∈ st.creatures) (hd : c.hp ≤ 0)
    (hids : st.creatures.Pairwise fun a b => a.id ≠ b.id)
    (hnext : ∀ x ∈ st.creatures, x.id < st.nextCreatureId)
    (hseats : st.filledSeats.Pairwise fun a b => a.color ≠ b.color) :
    (∀ x ∈ (doTurn st).creatures, x.id ≠ c.id) ∧
      c ∈ (doTurn st).entitiesToDelete ∧
      (doTurn st).creatures = (doMiscUpkeep (doCreatureTurns st)).creatures ∧
      (∀ s ∈ (doTurn st).filledSeats,
        s.mNumCreaturesControlled =
          liveControlledCount (doMiscUpkeep (doCreatureTurns st)).creatures s.color) ∧
      (∀ x ∈ (processDeletionQueues (doTurn st)).creatures, x.id ≠ c.id) ∧
      (processDeletionQueues (doTurn st)).entitiesToDelete = [] := by
  have hcid : c.id ∈ st.creatures.map Creature.id := List.mem_map_of_mem Creature.id hm
  have hAgone : ∀ x ∈ (doCreatureTurns st).creatures, x.id ≠ c.id :=
    (foldl_creatureDoTurn_dead (st.creatures.map Creature.id) st c hids hm hd hcid).1
  have hAqueue : c ∈ (doCreatureTurns st).entitiesToDelete :=
    (foldl_creatureDoTurn_dead (st.creatures.map Creature.id) st c hids hm hd hcid).2
  have hAframe :
      (doCreatureTurns st).creatures ⊆ st.creatures ∧
        st.entitiesToDelete ⊆ (doCreatureTurns st).entitiesToDelete ∧
        (doCreatureTurns st).nextCreatureId = st.nextCreatureId ∧
        (doCreatureTurns st).filledSeats = st.filledSeats ∧
        (doCreatureTurns st).rooms = st.rooms :=
    foldl_creatureDoTurn_frame (st.creatures.map Creature.id) st
  set A := doCreatureTurns st with hAdef
  have hBmem : ∀ x ∈ (doMiscUpkeep A).creatures,
      x ∈ A.creatures ∨ A.nextCreatureId ≤ x.id := by
    intro x hx
    unfold doMiscUpkeep at hx
    simp only [List.mem_append] at hx
    rcases hx with hx | hx
    · exact Or.inl hx
    · right
      simp only [List.mem_map] at hx
      obtain ⟨ic, _, rfl⟩ := hx
      simp only []
      omega
  have hBqueue : (doMiscUpkeep A).entitiesToDelete = A.entitiesToDelete := rfl
  have hBseats : (doMiscUpkeep A).filledSeats =
      A.filledSeats.map fun s => { s with mNumCreaturesControlled := 0 } := rfl
  have hDTcre : (doTurn st).creatures = (doMiscUpkeep A).creatures := rfl
  have hDTqueue : (doTurn st).entitiesToDelete = (doMiscUpkeep A).entitiesToDelete := rfl
  have hgone : ∀ x ∈ (doTurn st).creatures, x.id ≠ c.id := by
    intro x hx
    rw [hDTcre] at hx
    rcases hBmem x hx with h | h
    · exact hAgone x h
    · have h1 : c.id < st.nextCreatureId := hnext c hm
      have h2 : A.nextCreatureId = st.nextCreatureId := hAframe.2.2.1
      omega
  refine ⟨hgone, ?_, rfl, ?_, ?_, rfl⟩
  · rw [hDTqueue, hBqueue]
    exact hAqueue
  · have hpairB : (doMiscUpkeep A).filledSeats.Pairwise
        fun a b => a.color ≠ b.color := by
      rw [hBseats, hAframe.2.2.2.1]
      exact List.Pairwise.map _ (fun a b hab => hab) hseats
    have hsweep := sweep_counts (doMiscUpkeep A).creatures (doMiscUpkeep A).filledSeats hpairB
    intro s hs
    have hs' : s ∈ ((doMiscUpkeep A).filledSeats.map fun s0 =>
        { s0 with mNumCreaturesControlled :=
            s0.mNumCreaturesControlled +
              liveControlledCount (doMiscUpkeep A).creatures s0.color }) := by
      rw [← hsweep]
      exact hs
    simp only [List.mem_map] at hs'
    obtain ⟨s0, hs0, rfl⟩ := hs'
    rw [hBseats] at hs0
    simp only [List.mem_map] at hs0
    obtain ⟨s1, _, rfl⟩ := hs0
    simp
  · intro x hx
    exact hgone x hx

/-- A map state holding a single creature with health 0, owned by seat 1. -/
def singleDeadCreatureState : GameState :=
  { creatures := [⟨0, 1, 0, false⟩]
    filledSeats := [⟨1, 0, 7⟩]
    rooms := []
    entitiesToDelete := []
    nextCreatureId := 1 }

/-- Witness for C1: a single creature with health 0 owned by seat 1; after
one doTurn it is gone from the live enumeration and sits on the deferred
deletion queue. -/
theorem C1_dead_creature_deferred_witness :
    (∀ x ∈ (doTurn singleDeadCreatureState).creatures, x.id ≠ (0 : Nat)) ∧
      (⟨0, 1, 0, false⟩ : Creature) ∈ (doTurn singleDeadCreatureState).entitiesToDelete := by
  have h := C1_dead_creature_deferred singleDeadCreatureState ⟨0, 1, 0, false⟩
    (by simp [singleDeadCreatureState]) (by norm_num)
    (by simp [singleDeadCreatureState]) (by simp [singleDeadCreatureState])
    (by simp [singleDeadCreatureState])
  exact ⟨h.1, h.2.1⟩

/-! ### GameMap::path - the A* search (GameMap.cpp lines 61-120, 847-1064)

The C++ allocates AstarEntry nodes on the heap and links them through parent
pointers; here the allocations live in an append-only store and parent
pointers are store indices, which the C++'s mutation discipline keeps stable.
All costs computed by the search are integers (g starts at 0 and grows by the
unit step cost 1, h is a Manhattan distance), so the doubles g and h are
embedded as integers, exactly representing every value the code computes.
The search loop terminates because every iteration moves one entry from the
open list to the closed list and a tile enters the open list at most once;
the wrapper passes mMapSizeX * mMapSizeY + 1 as fuel, enough for any grid. -/

/-- One A* search node (class AstarEntry): the referenced tile, the owning
back-reference to the parent search node (a store index), the accumulated
cost g and the heuristic h.  The default constructor zeroes g and h and has
no parent. -/
structure AstarEntry where
  tile : Coord
  parent : Option Nat
  g : Int
  h : Int
deriving DecidableEq

/-- AstarEntry::fCost: g + h. -/
def AstarEntry.fCost (e : AstarEntry) : Int := e.g + e.h

/-- AstarEntry::setHeuristic (lines 89-92): h := |x2 - x1| + |y2 - y1|. -/
def AstarEntry.setHeuristic (e : AstarEntry) (x1 y1 x2 y2 : Int) : AstarEntry :=
  { e with h := ((x2 - x1).natAbs : Int) + ((y2 - y1).natAbs : Int) }

/-- The Manhattan distance between two tiles, for stating claim C3. -/
def manhattanDist (p q : Coord) : Int :=
  ((q.1 - p.1).natAbs : Int) + ((q.2 - p.2).natAbs : Int)

/-- The state of one A* search: the allocation store of all search nodes and
the open and closed lists of store indices (the closed list in closing
order). -/
structure AstarState where
  store : List AstarEntry
  openList : List Nat
  closedList : List Nat

/-- The store entry at an index (total, with a dummy default: the search only
ever uses indices below the store length). -/
def entryAt (store : List AstarEntry) (i : Nat) : AstarEntry :=
  (store[i]?).getD ⟨(0, 0), none, 0, 0⟩

/-- The scan for the open-list entry with the lowest fCost (lines 887-895):
keep the first entry seen, replacing it only on a strictly smaller fCost, so
ties go to the earlier (insertion-order) entry. -/
def pickSmallest (store : List AstarEntry) : List Nat → Option Nat
  | [] => none
  | i :: rest =>
    some (rest.foldl
      (fun best j =>
        if (entryAt store j).fCost < (entryAt store best).fCost then j else best)
      i)

/-- The neighbor-admissibility test of the search (lines 919-949): walkable
requires a walkable neighbor; flyable accepts walkable or flyable; diggable
accepts walkable or a tile diggable by the searching faction; the
impassableTile case of the switch filters nothing. -/
def neighborAdmissible (gm : GameMap) (passability : TileClearType) (color : Int)
    (nb : Coord) : Bool :=
  match passability with
  | TileClearType.walkableTile => gm.passabilityAt nb == TileClearType.walkableTile
  | TileClearType.flyableTile =>
      gm.passabilityAt nb == TileClearType.walkableTile
        || gm.passabilityAt nb == TileClearType.flyableTile
  | TileClearType.diggableTile =>
      gm.passabilityAt nb == TileClearType.walkableTile || gm.diggableAt nb color
  | TileClearType.impassableTile => true

/-- The body of the neighbor loop (lines 908-1017) for one neighbor tile of
the current (just closed) entry: skip inadmissible neighbors and neighbors
already closed; push a fresh node for an unseen neighbor - g is the parent's
g plus the unit step cost 1, the parent is the current entry, and, as the
code does, setHeuristic is applied to the CURRENT entry with the start
coordinates and the neighbor's coordinates (the reusable neighbor node's own
h is never assigned and stays 0); for a neighbor already open, re-parent it
when the new path is strictly cheaper. -/
def processNeighbor (gm : GameMap) (passability : TileClearType) (color : Int)
    (x1 y1 : Int) (cur : Nat) (st : AstarState) (nb : Coord) : AstarState :=
  if !neighborAdmissible gm passability color nb then
    st
  else if st.closedList.any fun i => (entryAt st.store i).tile == nb then
    st
  else
    match st.openList.find? fun i => (entryAt st.store i).tile == nb with
    | none =>
      let curEntry := entryAt st.store cur
      let store1 := st.store.set cur (curEntry.setHeuristic x1 y1 nb.1 nb.2)
      let newEntry : AstarEntry := ⟨nb, some cur, curEntry.g + 1, 0⟩
      { st with
          store := store1 ++ [newEntry]
          openList := st.openList ++ [store1.length] }
    | some j =>
      let curEntry := entryAt st.store cur
      let jEntry := entryAt st.store j
      if curEntry.g + 1 < jEntry.g then
        { st with
            store := st.store.set j { jEntry with g := curEntry.g + 1, parent := some cur } }
      else
        st

/-- The main search loop (lines 881-1018): pop the lowest-fCost open entry
onto the closed list; stop successfully when it is the destination, else
process its neighbors and continue.  Returns the final state and the closed
destination entry's index on success, none when the open list empties (no
path) or the fuel runs out. -/
def astarLoop (gm : GameMap) (passability : TileClearType) (color : Int)
    (x1 y1 : Int) (dest : Coord) : Nat → AstarState → Option (AstarState × Nat)
  | 0, _ => none
  | fuel + 1, st =>
    match pickSmallest st.store st.openList with
    | none => none
    | some cur =>
      let st1 : AstarState :=
        { st with
            openList := st.openList.erase cur
            closedList := st.closedList ++ [cur] }
      if (entryAt st1.store cur).tile == dest then
        some (st1, cur)
      else
        let t := (entryAt st1.store cur).tile
        astarLoop gm passability color x1 y1 dest fuel
          ((gm.neighborCoords t.1 t.2).foldl
            (processNeighbor gm passability color x1 y1 cur) st1)

/-- The backtracking do-while of lines 1033-1043: follow the parent chain
from the destination entry, pushing each tile on the front of the result. -/
def buildPath (store : List AstarEntry) : Nat → Option Nat → List Coord → List Coord
  | 0, _, acc => acc
  | _ + 1, none, acc => acc
  | fuel + 1, some i, acc =>
    buildPath store fuel (entryAt store i).parent ((entryAt store i).tile :: acc)

/-- GameMap::walkablePathExists (lines 1142-1154): both tiles exist and carry
equal flood-fill colors. -/
def walkablePathExists (gm : GameMap) (colors : Coord → Int) (x1 y1 x2 y2 : Int) : Bool :=
  match gm.getTile x1 y1 with
  | some _ =>
    match gm.getTile x2 y2 with
    | some _ => colors (x1, y1) == colors (x2, y2)
    | none => false
  | none => false

/-- GameMap::path (lines 847-1064).  The flood-fill state (the enable flag
and the per-tile colors the ConnectivityEngine maintains) is passed
explicitly.  Returns the ordered tile sequence, empty on failure.  The only
mutation the C++ function performs besides its local search state is the
diagnostics counter numCallsTo_path; the grid is untouched. -/
def GameMap.path (gm : GameMap) (floodFillEnabled : Bool) (colors : Coord → Int)
    (x1 y1 x2 y2 : Int) (passability : TileClearType) (color : Int) : List Coord :=
  if (gm.getTile x1 y1).isNone then
    []
  else if floodFillEnabled && passability == TileClearType.walkableTile
      && !walkablePathExists gm colors x1 y1 x2 y2 then
    []
  else
    match gm.getTile x2 y2 with
    | none => []
    | some _ =>
      let startEntry : AstarEntry :=
        AstarEntry.setHeuristic ⟨(x1, y1), none, 0, 0⟩ x1 y1 x2 y2
      let st0 : AstarState := ⟨[startEntry], [0], []⟩
      match astarLoop gm passability color x1 y1 (x2, y2)
          (gm.mMapSizeX * gm.mMapSizeY + 1) st0 with
      | none => []
      | some (st, _) =>
        match st.closedList.find? fun i => (entryAt st.store i).tile == (x2, y2) with
        | none => []
        | some i => buildPath st.store (st.store.length + 1) (some i) []

/-- GameMap::pathExists (lines 839-845): for the walkable class the
flood-fill color comparison, otherwise a path of length at least 2. -/
def GameMap.pathExists (gm : GameMap) (floodFillEnabled : Bool) (colors : Coord → Int)
    (x1 y1 x2 y2 : Int) (passability : TileClearType) (color : Int) : Bool :=
  if passability == TileClearType.walkableTile then
    walkablePathExists gm colors x1 y1 x2 y2
  else
    decide ((gm.path floodFillEnabled colors x1 y1 x2 y2 passability color).length ≥ 2)

/-- Claim C3 at the failing input path(0,0 -> 2,0) on the fully-open 3 by 1
grid: after the first search iteration the node placed on the open set for
tile (1,0) stores h = 0, although the Manhattan distance from (1,0) to the
goal (2,0) is 1; the heuristic was instead written onto the just-expanded
start node as the distance from the START to the neighbor (h = 1 where the
start's true distance to goal is 2).  The comment at GameMap.cpp line 997
("Use the manhattan distance for the heuristic") documents the intent, but
line 998 calls setHeuristic on currentEntry with (x1, y1, neighbor.x,
neighbor.y) instead of setting the neighbor's h toward (x2, y2). -/
theorem C3_heuristic_bug :
    (((openGrid 3 1).neighborCoords 0 0).foldl
          (processNeighbor (openGrid 3 1) TileClearType.walkableTile 0 0 0 0)
          ⟨[AstarEntry.setHeuristic ⟨(0, 0), none, 0, 0⟩ 0 0 2 0], [], [0]⟩).openList
        = [1] ∧
      entryAt (((openGrid 3 1).neighborCoords 0 0).foldl
          (processNeighbor (openGrid 3 1) TileClearType.walkableTile 0 0 0 0)
          ⟨[AstarEntry.setHeuristic ⟨(0, 0), none, 0, 0⟩ 0 0 2 0], [], [0]⟩).store 1 =
        { tile := (1, 0), parent := some 0, g := 1, h := 0 } ∧
      manhattanDist (1, 0) (2, 0) = 1 ∧
      entryAt (((openGrid 3 1).neighborCoords 0 0).foldl
          (processNeighbor (openGrid 3 1) TileClearType.walkableTile 0 0 0 0)
          ⟨[AstarEntry.setHeuristic ⟨(0, 0), none, 0, 0⟩ 0 0 2 0], [], [0]⟩).store 0 =
        { tile := (0, 0), parent := none, g := 0, h := 1 } ∧
      manhattanDist (0, 0) (2, 0) = 2 := by
  decide

/-- Claim C8: a path query whose start or goal tile does not exist on the
grid returns the empty sequence - a not-found result, produced before the
search touches anything (and the embedded path function is a pure function of
the grid: the grid is unchanged). -/
theorem C8_path_missing_endpoint (gm : GameMap) (floodFillEnabled : Bool)
    (colors : Coord → Int) (x1 y1 x2 y2 : Int) (passability : TileClearType)
    (color : Int) (h : gm.getTile x1 y1 = none ∨ gm.getTile x2 y2 = none) :
    gm.path floodFillEnabled colors x1 y1 x2 y2 passability color = [] := by
  unfold GameMap.path
  rcases h with h | h
  · simp [h]
  · split
    · rfl
    · split
      · rfl
      · rw [h]

/-- Witness for C8: on the 2 by 2 grid, a query from the nonexistent tile
(-1, 0) and a query to the nonexistent tile (5, 5) both return the empty
sequence. -/
theorem C8_path_missing_endpoint_witness :
    (openGrid 2 2).path false (fun _ => -1) (-1) 0 1 1 TileClearType.walkableTile 0
        = [] ∧
      (openGrid 2 2).path false (fun _ => -1) 0 0 5 5 TileClearType.walkableTile 0
        = [] := by
  constructor
  · exact C8_path_missing_endpoint (openGrid 2 2) false (fun _ => -1) (-1) 0 1 1
      TileClearType.walkableTile 0 (Or.inl (by rfl))
  · exact C8_path_missing_endpoint (openGrid 2 2) false (fun _ => -1) 0 0 5 5
      TileClearType.walkableTile 0 (Or.inr (by rfl))

/-! ### Claim C9: shape of returned paths

The search maintains: parent pointers link a node to an already-closed node
whose tile is a grid neighbor; only the start node has no parent; every
stored tile exists; the open and closed lists hold valid, duplicate-free,
disjoint indices; and a closed node's parent was closed strictly earlier.
These give the backtracked path its shape: it starts at the start tile, ends
at the destination entry's tile, and every consecutive pair is a pair of
mutual grid neighbors. -/

/-- The invariant of the A* search state. -/
structure AstarInv (gm : GameMap) (start : Coord) (st : AstarState) : Prop where
  rootTile : ∀ (i : Nat) (e : AstarEntry), st.store[i]? = some e →
    e.parent = none → e.tile = start
  parentLink : ∀ (i : Nat) (e : AstarEntry) (p : Nat), st.store[i]? = some e →
    e.parent = some p →
    ∃ ep : AstarEntry, st.store[p]? = some ep ∧
      e.tile ∈ gm.neighborCoords ep.tile.1 ep.tile.2 ∧ p ∈ st.closedList
  tilesExist : ∀ (i : Nat) (e : AstarEntry), st.store[i]? = some e →
    (gm.getTile e.tile.1 e.tile.2).isSome = true
  openBound : ∀ i ∈ st.openList, i < st.store.length
  closedBound : ∀ i ∈ st.closedList, i < st.store.length
  openNodup : st.openList.Nodup
  closedNodup : st.closedList.Nodup
  disjointOC : ∀ i ∈ st.openList, i ∉ st.closedList
  closedRank : ∀ (k i : Nat) (e : AstarEntry) (p : Nat),
    st.closedList[k]? = some i → st.store[i]? = some e →
    e.parent = some p → p ∈ st.closedList.take k

/-- The per-neighbor frame: the closed list is untouched, the store only
grows, and existing entries keep their tiles. -/
def StepFrame (st st' : AstarState) : Prop :=
  st'.closedList = st.closedList ∧ st.store.length ≤ st'.store.length ∧
    ∀ (i : Nat) (e : AstarEntry), st.store[i]? = some e →
      ∃ e' : AstarEntry, st'.store[i]? = some e' ∧ e'.tile = e.tile

theorem stepFrame_refl (st : AstarState) : StepFrame st st :=
  ⟨rfl, le_refl _, fun _ e he => ⟨e, he, rfl⟩⟩

theorem stepFrame_trans {s1 s2 s3 : AstarState} (h12 : StepFrame s1 s2)
    (h23 : StepFrame s2 s3) : StepFrame s1 s3 := by
  obtain ⟨a1, a2, a3⟩ := h12
  obtain ⟨b1, b2, b3⟩ := h23
  refine ⟨b1.trans a1, le_trans a2 b2, ?_⟩
  intro i e he
  obtain ⟨e', he', ht⟩ := a3 i e he
  obtain ⟨e'', he'', ht'⟩ := b3 i e' he'
  exact ⟨e'', he'', ht'.trans ht⟩

/-- Membership in the neighbor list means the tile exists. -/
theorem mem_neighborCoords_exists (gm : GameMap) (x y : Int) (q : Coord)
    (h : q ∈ gm.neighborCoords x y) : (gm.getTile q.1 q.2).isSome = true := by
  unfold GameMap.neighborCoords at h
  exact (List.mem_filter.mp h).2

/-- The 4-neighbor relation is symmetric between existing tiles. -/
theorem neighborCoords_symm (gm : GameMap) (p q : Coord)
    (hq : q ∈ gm.neighborCoords p.1 p.2)
    (hp : (gm.getTile p.1 p.2).isSome = true) :
    p ∈ gm.neighborCoords q.1 q.2 := by
  unfold GameMap.neighborCoords at hq ⊢
  rw [List.mem_filter] at hq ⊢
  refine ⟨?_, hp⟩
  obtain ⟨hmem, _⟩ := hq
  simp only [List.mem_cons, List.not_mem_nil, or_false] at hmem ⊢
  have hpp : p = (p.1, p.2) := rfl
  rcases hmem with h | h | h | h
  · right; left
    rw [h, hpp]
    simp
  · left
    rw [h, hpp]
    simp
  · right; right; right
    rw [h, hpp]
    simp
  · right; right; left
    rw [h, hpp]
    simp

/-- pickSmallest only returns a member of the scanned list. -/
theorem pickSmallest_mem (store : List AstarEntry) (l : List Nat) (c : Nat)
    (h : pickSmallest store l = some c) : c ∈ l := by
  match l with
  | [] => simp [pickSmallest] at h
  | i :: rest =>
    simp only [pickSmallest, Option.some.injEq] at h
    subst h
    have : ∀ (rest : List Nat) (i : Nat),
        rest.foldl
            (fun best j =>
              if (entryAt store j).fCost < (entryAt store best).fCost then j else best)
            i = i ∨
          rest.foldl
            (fun best j =>
              if (entryAt store j).fCost < (entryAt store best).fCost then j else best)
            i ∈ rest := by
      intro rest
      induction rest with
      | nil => exact fun i => Or.inl rfl
      | cons j rest' ih =>
        intro i
        simp only [List.foldl_cons]
        rcases ih (if (entryAt store j).fCost < (entryAt store i).fCost then j else i)
          with h | h
        · rw [h]
          split
          · exact Or.inr (List.mem_cons_self _ _)
          · exact Or.inl rfl
        · exact Or.inr (List.mem_cons_of_mem _ h)
    rcases this rest i with h | h
    · rw [h]
      exact List.mem_cons_self _ _
    · exact List.mem_cons_of_mem _ h

/-- An element read by getElem? is a member of the list. -/
theorem mem_of_getElem?_some {α : Type} {l : List α} {k : Nat} {a : α}
    (h : l[k]? = some a) : a ∈ l := by
  rcases List.getElem?_eq_some.mp h with ⟨hlt, rfl⟩
  exact l.getElem_mem hlt

@[simp]
theorem setHeuristic_tile (e : AstarEntry) (a b c d : Int) :
    (e.setHeuristic a b c d).tile = e.tile := rfl

@[simp]
theorem setHeuristic_parent (e : AstarEntry) (a b c d : Int) :
    (e.setHeuristic a b c d).parent = e.parent := rfl

/-- Processing one admissible neighbor of a closed entry preserves the
search invariant and the step frame. -/
theorem processNeighbor_inv (gm : GameMap) (passability : TileClearType) (color : Int)
    (x1 y1 : Int) (cur : Nat) (st : AstarState) (nb : Coord) (start : Coord)
    (hcur : cur ∈ st.closedList)
    (hnb : ∀ ec : AstarEntry, st.store[cur]? = some ec →
      nb ∈ gm.neighborCoords ec.tile.1 ec.tile.2)
    (hInv : AstarInv gm start st) :
    AstarInv gm start (processNeighbor gm passability color x1 y1 cur st nb) ∧
      StepFrame st (processNeighbor gm passability color x1 y1 cur st nb) := by
  have hcb : cur < st.store.length := hInv.closedBound cur hcur
  have hec : st.store[cur]? = some st.store[cur] := List.getElem?_eq_getElem hcb
  set ec := st.store[cur] with hecdef
  have hecAt : entryAt st.store cur = ec := by
    unfold entryAt
    rw [hec]
    rfl
  unfold processNeighbor
  split
  · exact ⟨hInv, stepFrame_refl st⟩
  · split
    · exact ⟨hInv, stepFrame_refl st⟩
    · split
      · -- neighbor not on the open list: push a fresh entry
        rename_i hfind
        rw [hecAt]
        set e1 := ec.setHeuristic x1 y1 nb.1 nb.2 with he1
        set store1 := st.store.set cur e1 with hstore1
        set newEntry : AstarEntry := ⟨nb, some cur, ec.g + 1, 0⟩ with hnew
        set store' := store1 ++ [newEntry] with hstore'
        have hlen1 : store1.length = st.store.length := List.length_set _ _ _
        have hlen' : store'.length = st.store.length + 1 := by
          rw [hstore', List.length_append, hlen1]
          rfl
        have hget_new : store'[st.store.length]? = some newEntry := by
          rw [hstore', ← hlen1]
          exact List.getElem?_concat_length store1 newEntry
        have hget_cur : store'[cur]? = some e1 := by
          rw [hstore', List.getElem?_append, if_pos (by rw [hlen1]; exact hcb), hstore1]
          exact List.getElem?_set_eq hcb
        have hget_old : ∀ j, j ≠ cur → j < st.store.length → store'[j]? = st.store[j]? := by
          intro j hj hjb
          rw [hstore', List.getElem?_append, if_pos (by rw [hlen1]; exact hjb), hstore1,
            List.getElem?_set_ne (fun h => hj h.symm)]
        have hchar : ∀ (i : Nat) (e : AstarEntry), store'[i]? = some e →
            (i = st.store.length ∧ e = newEntry) ∨
              (∃ e₀ : AstarEntry, st.store[i]? = some e₀ ∧
                e.tile = e₀.tile ∧ e.parent = e₀.parent) := by
          intro i e he
          have hib : i < store'.length := by
            rcases List.getElem?_eq_some.mp he with ⟨h, _⟩
            exact h
          rw [hlen'] at hib
          by_cases hi : i = st.store.length
          · subst hi
            rw [hget_new] at he
            exact Or.inl ⟨rfl, (Option.some.injEq _ _).mp he.symm⟩
          · have hib' : i < st.store.length := by omega
            right
            by_cases hic : i = cur
            · subst hic
              rw [hget_cur] at he
              injection he with he'
              refine ⟨ec, hec, ?_, ?_⟩
              · rw [← he']
                rfl
              · rw [← he']
                rfl
            · rw [hget_old i hic hib'] at he
              exact ⟨e, he, rfl, rfl⟩
        have hpres : ∀ (j : Nat) (e : AstarEntry), st.store[j]? = some e →
            ∃ e' : AstarEntry, store'[j]? = some e' ∧ e'.tile = e.tile := by
          intro j e he
          have hjb : j < st.store.length := by
            rcases List.getElem?_eq_some.mp he with ⟨h, _⟩
            exact h
          by_cases hj : j = cur
          · subst hj
            refine ⟨e1, hget_cur, ?_⟩
            rw [hec] at he
            injection he with he'
            rw [← he']
            rfl
          · exact ⟨e, by rw [hget_old j hj hjb]; exact he, rfl⟩
        constructor
        · constructor
          · -- rootTile
            intro i e he hpar
            rcases hchar i e he with ⟨_, rfl⟩ | ⟨e₀, he₀, ht, hp⟩
            · simp [hnew] at hpar
            · rw [ht]
              exact hInv.rootTile i e₀ he₀ (by rw [← hp]; exact hpar)
          · -- parentLink
            intro i e p he hpar
            rcases hchar i e he with ⟨_, rfl⟩ | ⟨e₀, he₀, ht, hp⟩
            · have hpc : p = cur := by
                simp [hnew] at hpar
                exact hpar.symm
              subst hpc
              refine ⟨e1, hget_cur, ?_, hcur⟩
              have hnt : newEntry.tile = nb := rfl
              have het : e1.tile = ec.tile := rfl
              rw [hnt, het]
              exact hnb ec hec
            · obtain ⟨ep, hep, hmem, hcl⟩ :=
                hInv.parentLink i e₀ p he₀ (by rw [← hp]; exact hpar)
              obtain ⟨ep', hep', htp⟩ := hpres p ep hep
              refine ⟨ep', hep', ?_, hcl⟩
              rw [htp, ht]
              exact hmem
          · -- tilesExist
            intro i e he
            rcases hchar i e he with ⟨_, rfl⟩ | ⟨e₀, he₀, ht, _⟩
            · have hnt : newEntry.tile = nb := rfl
              rw [hnt]
              exact mem_neighborCoords_exists gm _ _ nb (hnb ec hec)
            · rw [ht]
              exact hInv.tilesExist i e₀ he₀
          · -- openBound
            intro i hi
            rcases List.mem_append.mp hi with hi | hi
            · have := hInv.openBound i hi
              simp only [List.length_append, List.length_set, List.length_singleton]
              omega
            · simp only [List.mem_singleton, List.length_set] at hi
              simp only [List.length_append, List.length_set, List.length_singleton]
              omega
          · -- closedBound
            intro i hi
            have := hInv.closedBound i hi
            simp only [List.length_append, List.length_set, List.length_singleton]
            omega
          · -- openNodup
            rw [List.nodup_append]
            refine ⟨hInv.openNodup, List.nodup_singleton _, ?_⟩
            intro a ha hb
            simp only [List.mem_singleton, List.length_set] at hb
            subst hb
            have := hInv.openBound _ ha
            simp only [List.length_set] at this
            omega
          · -- closedNodup
            exact hInv.closedNodup
          · -- disjointOC
            intro i hi
            rcases List.mem_append.mp hi with hi | hi
            · exact hInv.disjointOC i hi
            · simp only [List.mem_singleton, List.length_set] at hi
              subst hi
              intro hc
              have := hInv.closedBound _ hc
              simp only [List.length_set] at this
              omega
          · -- closedRank
            intro k i e p hk hi hpar
            have hic : i ∈ st.closedList := by
              have hki : st.closedList[k]? = some i := hk
              exact mem_of_getElem?_some hki
            have hib : i < st.store.length := hInv.closedBound i hic
            rcases hchar i e hi with ⟨hlen_eq, _⟩ | ⟨e₀, he₀, _, hp⟩
            · omega
            · exact hInv.closedRank k i e₀ p hk he₀ (by rw [← hp]; exact hpar)
        · -- StepFrame
          refine ⟨rfl, ?_, hpres⟩
          simp only [List.length_append, List.length_set, List.length_singleton]
          omega
      · -- neighbor found on the open list: possibly re-parent
        rename_i j hfind
        rw [hecAt]
        have hjo : j ∈ st.openList := List.mem_of_find?_eq_some hfind
        have hjb : j < st.store.length := hInv.openBound j hjo
        have hje : st.store[j]? = some st.store[j] := List.getElem?_eq_getElem hjb
        set je := st.store[j] with hjedef
        have hjeAt : entryAt st.store j = je := by
          unfold entryAt
          rw [hje]
          rfl
        have hjtile : je.tile = nb := by
          have := List.find?_some hfind
          rw [hjeAt] at this
          exact beq_iff_eq.mp this
        have hjnc : j ∉ st.closedList := hInv.disjointOC j hjo
        have hjcur : j ≠ cur := fun h => hjnc (h ▸ hcur)
        rw [hjeAt]
        dsimp only
        split
        · set newj : AstarEntry := { je with g := ec.g + 1, parent := some cur } with hnewj
          set store' := st.store.set j newj with hstore'
          have hlen' : store'.length = st.store.length := List.length_set _ _ _
          have hget_j : store'[j]? = some newj := by
            rw [hstore']
            exact List.getElem?_set_eq hjb
          have hget_old : ∀ i, i ≠ j → store'[i]? = st.store[i]? := by
            intro i hi
            rw [hstore', List.getElem?_set_ne (fun h => hi h.symm)]
          have hchar : ∀ (i : Nat) (e : AstarEntry), store'[i]? = some e →
              (i = j ∧ e = newj) ∨ (i ≠ j ∧ st.store[i]? = some e) := by
            intro i e he
            by_cases hi : i = j
            · subst hi
              rw [hget_j] at he
              injection he with he'
              exact Or.inl ⟨rfl, he'.symm⟩
            · rw [hget_old i hi] at he
              exact Or.inr ⟨hi, he⟩
          have hpres : ∀ (i : Nat) (e : AstarEntry), st.store[i]? = some e →
              ∃ e' : AstarEntry, store'[i]? = some e' ∧ e'.tile = e.tile := by
            intro i e he
            by_cases hi : i = j
            · subst hi
              refine ⟨newj, hget_j, ?_⟩
              rw [hje] at he
              injection he with he'
              rw [← he']
            · exact ⟨e, by rw [hget_old i hi]; exact he, rfl⟩
          constructor
          · constructor
            · intro i e he hpar
              rcases hchar i e he with ⟨_, rfl⟩ | ⟨_, he'⟩
              · simp [hnewj] at hpar
              · exact hInv.rootTile i e he' hpar
            · intro i e p he hpar
              rcases hchar i e he with ⟨hij, rfl⟩ | ⟨hij, he'⟩
              · have hpc : p = cur := by
                  simp [hnewj] at hpar
                  exact hpar.symm
                rw [hpc]
                refine ⟨ec, by rw [hget_old cur hjcur.symm]; exact hec, ?_, hcur⟩
                have : newj.tile = nb := by
                  rw [hnewj]
                  exact hjtile
                rw [this]
                exact hnb ec hec
              · obtain ⟨ep, hep, hmem, hcl⟩ := hInv.parentLink i e p he' hpar
                obtain ⟨ep', hep', htp⟩ := hpres p ep hep
                refine ⟨ep', hep', ?_, hcl⟩
                rw [htp]
                exact hmem
            · intro i e he
              rcases hchar i e he with ⟨_, rfl⟩ | ⟨_, he'⟩
              · have : newj.tile = je.tile := rfl
                rw [this]
                exact hInv.tilesExist j je hje
              · exact hInv.tilesExist i e he'
            · intro i hi
              rw [hlen']
              exact hInv.openBound i hi
            · intro i hi
              rw [hlen']
              exact hInv.closedBound i hi
            · exact hInv.openNodup
            · exact hInv.closedNodup
            · exact hInv.disjointOC
            · intro k i e p hk hi hpar
              have hic : i ∈ st.closedList := mem_of_getElem?_some hk
              have hij : i ≠ j := fun h => hjnc (h ▸ hic)
              rw [hget_old i hij] at hi
              exact hInv.closedRank k i e p hk hi hpar
          · exact ⟨rfl, by rw [hlen'], hpres⟩
        · exact ⟨hInv, stepFrame_refl st⟩

/-- Folding the neighbor processing over any list of neighbors of the
current closed entry preserves the invariant and the frame. -/
theorem foldl_processNeighbor_inv (gm : GameMap) (passability : TileClearType)
    (color : Int) (x1 y1 : Int) (cur : Nat) (start t : Coord) :
    ∀ (nbs : List Coord) (st : AstarState),
      (∀ nb ∈ nbs, nb ∈ gm.neighborCoords t.1 t.2) →
      cur ∈ st.closedList →
      (∀ ec : AstarEntry, st.store[cur]? = some ec → ec.tile = t) →
      AstarInv gm start st →
      AstarInv gm start
          (nbs.foldl (processNeighbor gm passability color x1 y1 cur) st) ∧
        StepFrame st (nbs.foldl (processNeighbor gm passability color x1 y1 cur) st) := by
  intro nbs
  induction nbs with
  | nil => exact fun st _ _ _ hInv => ⟨hInv, stepFrame_refl st⟩
  | cons nb rest ih =>
    intro st hnbs hcur htile hInv
    rw [List.foldl_cons]
    have hstep := processNeighbor_inv gm passability color x1 y1 cur st nb start hcur
      (by
        intro ec hec
        rw [htile ec hec]
        exact hnbs nb (List.mem_cons_self _ _))
      hInv
    obtain ⟨hInv', hframe⟩ := hstep
    have hcur' : cur ∈ (processNeighbor gm passability color x1 y1 cur st nb).closedList := by
      rw [hframe.1]
      exact hcur
    have htile' : ∀ ec : AstarEntry,
        (processNeighbor gm passability color x1 y1 cur st nb).store[cur]? = some ec →
        ec.tile = t := by
      intro ec hec
      have hcb : cur < st.store.length := hInv.closedBound cur hcur
      have hold : st.store[cur]? = some st.store[cur] := List.getElem?_eq_getElem hcb
      obtain ⟨e', he', ht'⟩ := hframe.2.2 cur _ hold
      rw [he'] at hec
      injection hec with hec'
      rw [← hec', ht']
      exact htile _ hold
    have hrest := ih (processNeighbor gm passability color x1 y1 cur st nb)
      (fun nb' h => hnbs nb' (List.mem_cons_of_mem _ h)) hcur' htile' hInv'
    exact ⟨hrest.1, stepFrame_trans hframe hrest.2⟩

/-- Moving the chosen open entry onto the closed list preserves the
invariant. -/
theorem pop_inv (gm : GameMap) (start : Coord) (st : AstarState) (cur : Nat)
    (hcur : cur ∈ st.openList) (hInv : AstarInv gm start st) :
    AstarInv gm start
      { st with
          openList := st.openList.erase cur
          closedList := st.closedList ++ [cur] } := by
  have hcnc : cur ∉ st.closedList := hInv.disjointOC cur hcur
  constructor
  · exact hInv.rootTile
  · intro i e p he hpar
    obtain ⟨ep, hep, hmem, hcl⟩ := hInv.parentLink i e p he hpar
    exact ⟨ep, hep, hmem, List.mem_append.mpr (Or.inl hcl)⟩
  · exact hInv.tilesExist
  · intro i hi
    exact hInv.openBound i (List.erase_subset _ _ hi)
  · intro i hi
    rcases List.mem_append.mp hi with hi | hi
    · exact hInv.closedBound i hi
    · simp only [List.mem_singleton] at hi
      subst hi
      exact hInv.openBound i hcur
  · exact hInv.openNodup.erase cur
  · rw [List.nodup_append]
    refine ⟨hInv.closedNodup, List.nodup_singleton _, ?_⟩
    intro a ha hb
    simp only [List.mem_singleton] at hb
    subst hb
    exact hcnc ha
  · intro i hi
    have hi' := (hInv.openNodup.mem_erase_iff).mp hi
    intro hc
    rcases List.mem_append.mp hc with hc | hc
    · exact hInv.disjointOC i hi'.2 hc
    · simp only [List.mem_singleton] at hc
      exact hi'.1 hc
  · intro k i e p hk hi hpar
    by_cases hkb : k < st.closedList.length
    · have hk' : st.closedList[k]? = some i := by
        rw [List.getElem?_append, if_pos hkb] at hk
        exact hk
      have := hInv.closedRank k i e p hk' hi hpar
      rw [List.take_append_of_le_length (le_of_lt hkb)]
      exact this
    · have hkeq : k = st.closedList.length := by
        have hkb2 : k < (st.closedList ++ [cur]).length := by
          rcases List.getElem?_eq_some.mp hk with ⟨h, _⟩
          exact h
        rw [List.length_append, List.length_singleton] at hkb2
        omega
      subst hkeq
      obtain ⟨_, _, _, hcl⟩ := hInv.parentLink i e p hi hpar
      rw [List.take_append_of_le_length (le_refl _), List.take_length]
      exact hcl

/-- The A* loop preserves the invariant up to its successful return. -/
theorem astarLoop_inv (gm : GameMap) (passability : TileClearType) (color : Int)
    (x1 y1 : Int) (dest : Coord) (start : Coord) :
    ∀ (fuel : Nat) (st st' : AstarState) (idx : Nat),
      astarLoop gm passability color x1 y1 dest fuel st = some (st', idx) →
      AstarInv gm start st → AstarInv gm start st' := by
  intro fuel
  induction fuel with
  | zero =>
    intro st st' idx h
    simp [astarLoop] at h
  | succ n ih =>
    intro st st' idx h hInv
    rw [astarLoop] at h
    match hpick : pickSmallest st.store st.openList with
    | none => rw [hpick] at h; exact absurd h (by simp)
    | some cur =>
      rw [hpick] at h
      have hcur : cur ∈ st.openList := pickSmallest_mem st.store st.openList cur hpick
      have hpop := pop_inv gm start st cur hcur hInv
      set st1 : AstarState :=
        { st with
            openList := st.openList.erase cur
            closedList := st.closedList ++ [cur] } with hst1
      dsimp only at h
      by_cases hdest : ((entryAt st1.store cur).tile == dest) = true
      · rw [if_pos hdest] at h
        injection h with h'
        rw [← (Prod.mk.injEq _ _ _ _).mp h' |>.1]
        exact hpop
      · rw [if_neg hdest] at h
        have hcur1 : cur ∈ st1.closedList := by
          rw [hst1]
          exact List.mem_append.mpr (Or.inr (List.mem_singleton.mpr rfl))
        have hfold := foldl_processNeighbor_inv gm passability color x1 y1 cur start
          (entryAt st1.store cur).tile
          (gm.neighborCoords (entryAt st1.store cur).tile.1 (entryAt st1.store cur).tile.2)
          st1 (fun _ hq => hq) hcur1
          (by
            intro ec hec
            unfold entryAt
            rw [hec]
            rfl)
          hpop
        exact ih _ st' idx h hfold.1

/-- Backtracking from any closed entry yields a non-empty chain that starts
at the start tile, ends at that entry's tile, and steps between mutual grid
neighbors. -/
theorem buildPath_spec (gm : GameMap) (start : Coord) (st : AstarState)
    (hInv : AstarInv gm start st) :
    ∀ k : Nat, ∀ i : Nat, st.closedList[k]? = some i →
      ∀ fuel : Nat, k + 1 ≤ fuel → ∀ acc : List Coord,
      ∃ chain : List Coord,
        buildPath st.store fuel (some i) acc = chain ++ acc ∧
          chain ≠ [] ∧ chain.head? = some start ∧
          chain.getLast? = some ((entryAt st.store i).tile) ∧
          chain.Chain' (fun p q =>
            q ∈ gm.neighborCoords p.1 p.2 ∧ p ∈ gm.neighborCoords q.1 q.2) := by
  intro k
  induction k using Nat.strong_induction_on with
  | _ k ih =>
    intro i hk fuel hfuel acc
    have hic : i ∈ st.closedList := mem_of_getElem?_some hk
    have hib : i < st.store.length := hInv.closedBound i hic
    have hie : st.store[i]? = some st.store[i] := List.getElem?_eq_getElem hib
    set e := st.store[i] with hedef
    have heAt : entryAt st.store i = e := by
      unfold entryAt
      rw [hie]
      rfl
    obtain ⟨f, rfl⟩ : ∃ f, fuel = f + 1 := ⟨fuel - 1, by omega⟩
    rw [buildPath, heAt]
    cases hpar : e.parent with
    | none =>
      refine ⟨[e.tile], ?_, by simp, ?_, by simp, by simp⟩
      · cases f <;> simp [buildPath]
      · rw [List.head?_cons, hInv.rootTile i e hie hpar]
    | some p =>
      have hrank := hInv.closedRank k i e p hk hie hpar
      obtain ⟨k', hk'lt, hkp⟩ : ∃ k', k' < k ∧ st.closedList[k']? = some p := by
        rcases List.mem_iff_getElem?.mp hrank with ⟨n, hn⟩
        rw [List.getElem?_take] at hn
        by_cases hnk : n < k
        · rw [if_pos hnk] at hn
          exact ⟨n, hnk, hn⟩
        · rw [if_neg hnk] at hn
          exact absurd hn (by simp)
      obtain ⟨chain', hbp, hne, hhead, hlast, hchain⟩ :=
        ih k' hk'lt p hkp f (by omega) (e.tile :: acc)
      have hpb : p < st.store.length := hInv.closedBound p (mem_of_getElem?_some hkp)
      have hpe : st.store[p]? = some st.store[p] := List.getElem?_eq_getElem hpb
      obtain ⟨ep, hep, hmem, _⟩ := hInv.parentLink i e p hie hpar
      have hepAt : entryAt st.store p = ep := by
        unfold entryAt
        rw [hep]
        rfl
      refine ⟨chain' ++ [e.tile], ?_, by simp, ?_, ?_, ?_⟩
      · rw [hbp, List.append_assoc]
        rfl
      · rw [List.head?_append_of_ne_nil chain' hne]
        exact hhead
      · rw [List.getLast?_concat]
      · rw [List.chain'_append]
        refine ⟨hchain, List.chain'_singleton _, ?_⟩
        intro x hx y hy
        rw [hlast, hepAt] at hx
        simp only [Option.mem_def, Option.some.injEq] at hx
        simp only [List.head?_cons, Option.mem_def, Option.some.injEq] at hy
        subst hx
        subst hy
        exact ⟨hmem, neighborCoords_symm gm ep.tile e.tile hmem
          (hInv.tilesExist p ep hep)⟩

/-- A duplicate-free list of indices below a bound is no longer than the
bound. -/
theorem nodup_bounded_length (l : List Nat) (n : Nat) (hnd : l.Nodup)
    (hb : ∀ x ∈ l, x < n) : l.length ≤ n := by
  have h1 : l.toFinset.card = l.length := List.toFinset_card_of_nodup hnd
  have h2 : l.toFinset ⊆ Finset.range n := by
    intro x hx
    rw [List.mem_toFinset] at hx
    exact Finset.mem_range.mpr (hb x hx)
  have := Finset.card_le_card h2
  rw [h1, Finset.card_range] at this
  exact this

/-- Claim C9: whenever path(x1,y1,x2,y2,passability,color) returns a
non-empty list, the first element is the tile at (x1,y1), the last element
is the tile at (x2,y2), and every two consecutive tiles in the list are grid
neighbors of each other. -/
theorem C9_path_shape (gm : GameMap) (floodFillEnabled : Bool) (colors : Coord → Int)
    (x1 y1 x2 y2 : Int) (passability : TileClearType) (color : Int)
    (hne : gm.path floodFillEnabled colors x1 y1 x2 y2 passability color ≠ []) :
    (gm.path floodFillEnabled colors x1 y1 x2 y2 passability color).head? =
        some (x1, y1) ∧
      (gm.path floodFillEnabled colors x1 y1 x2 y2 passability color).getLast? =
        some (x2, y2) ∧
      (gm.path floodFillEnabled colors x1 y1 x2 y2 passability color).Chain'
        (fun p q =>
          q ∈ gm.neighborCoords p.1 p.2 ∧ p ∈ gm.neighborCoords q.1 q.2) := by
  unfold GameMap.path at hne ⊢
  split at hne
  · exact absurd rfl hne
  · rename_i hstart
    rw [if_neg hstart]
    split at hne
    · exact absurd rfl hne
    · rename_i hflood
      rw [if_neg hflood]
      split at hne
      · exact absurd rfl hne
      · rename_i tstart hx2
        dsimp only at hne ⊢
        set startEntry : AstarEntry :=
          AstarEntry.setHeuristic ⟨(x1, y1), none, 0, 0⟩ x1 y1 x2 y2 with hse
        set st0 : AstarState := ⟨[startEntry], [0], []⟩ with hst0
        have hInv0 : AstarInv gm (x1, y1) st0 := by
          constructor
          · intro i e he _
            match i, he with
            | 0, he =>
              injection he with he'
              rw [← he']
              rfl
          · intro i e p he hpar
            match i, he with
            | 0, he =>
              injection he with he'
              rw [← he'] at hpar
              simp [hse] at hpar
          · intro i e he
            match i, he with
            | 0, he =>
              injection he with he'
              rw [← he']
              show (gm.getTile x1 y1).isSome = true
              rcases h : gm.getTile x1 y1 with _ | v
              · rw [h] at hstart
                simp at hstart
              · rfl
          · intro i hi
            simp only [hst0, List.mem_singleton] at hi
            subst hi
            simp [hst0]
          · intro i hi
            simp [hst0] at hi
          · simp [hst0]
          · simp [hst0]
          · intro i _
            simp [hst0]
          · intro k i e p hk _ _
            simp [hst0] at hk
        revert hne
        rcases hloop : astarLoop gm passability color x1 y1 (x2, y2)
            (gm.mMapSizeX * gm.mMapSizeY + 1) st0 with _ | ⟨st, idx⟩
        · intro hne
          exact absurd rfl hne
        · intro hne
          dsimp only at hne ⊢
          have hInv : AstarInv gm (x1, y1) st :=
            astarLoop_inv gm passability color x1 y1 (x2, y2) (x1, y1) _ st0 st idx
              hloop hInv0
          revert hne
          rcases hfind : st.closedList.find?
              (fun i => (entryAt st.store i).tile == (x2, y2)) with _ | i
          · intro hne
            exact absurd rfl hne
          · intro hne
            dsimp only at hne ⊢
            have hic : i ∈ st.closedList := List.mem_of_find?_eq_some hfind
            have hpred := List.find?_some hfind
            have htile : (entryAt st.store i).tile = (x2, y2) :=
              beq_iff_eq.mp hpred
            obtain ⟨k, hk⟩ := List.mem_iff_getElem?.mp hic
            have hkb : k < st.closedList.length := by
              rcases List.getElem?_eq_some.mp hk with ⟨h, _⟩
              exact h
            have hclen : st.closedList.length ≤ st.store.length :=
              nodup_bounded_length st.closedList st.store.length hInv.closedNodup
                hInv.closedBound
            obtain ⟨chain, hbp, hcne, hhead, hlast, hchain⟩ :=
              buildPath_spec gm (x1, y1) st hInv k i hk (st.store.length + 1)
                (by omega) []
            rw [hbp, List.append_nil]
            exact ⟨hhead, by rw [hlast, htile], hchain⟩

/-- Witness for C9: the concrete query path(0,0 -> 2,0) on the fully-open
3 by 1 grid returns a non-empty path, whose head is (0,0), whose last tile is
(2,0), and whose consecutive tiles are mutual neighbors. -/
theorem C9_path_shape_witness :
    ((openGrid 3 1).path false (fun _ => -1) 0 0 2 0
          TileClearType.walkableTile 0).head? = some ((0 : Int), (0 : Int)) ∧
      ((openGrid 3 1).path false (fun _ => -1) 0 0 2 0
          TileClearType.walkableTile 0).getLast? = some ((2 : Int), (0 : Int)) ∧
      ((openGrid 3 1).path false (fun _ => -1) 0 0 2 0
          TileClearType.walkableTile 0).Chain'
        (fun p q => q ∈ (openGrid 3 1).neighborCoords p.1 p.2 ∧
          p ∈ (openGrid 3 1).neighborCoords q.1 q.2) :=
  C9_path_shape (openGrid 3 1) false (fun _ => -1) 0 0 2 0
    TileClearType.walkableTile 0 (by decide)

/-! ### The ConnectivityEngine: GameMap::doFloodFill / enableFloodFill
(GameMap.cpp lines 2104-2170)

The per-tile flood-fill colors (Tile::floodFillColor) and the fresh-color
counter (mUniqueNumberFloodFilling, reset to 0 by resetUniqueNumbers) form
the explicit state.  nextUniqueNumberFloodFilling is declared in GameMap.h
(not among the sources) and is modelled from the spec ("a freshly allocated
color"): it returns the current counter value and increments it, so every
call yields a new non-negative color.  The C++ recursion is unbounded; the
chain of nested calls colors a new tile at every level, so the tile count
bounds its depth and enableFloodFill runs each fill with
mMapSizeX * mMapSizeY + 2 fuel, which is never exhausted. -/

/-- The flood-fill state: per-tile connectivity colors and the fresh-color
counter. -/
structure FloodState where
  colors : Coord → Int
  counter : Int

/-- The neighbor loop of doFloodFill, parameterized by the recursive call at
the next depth: recurse into every neighbor not already carrying the fill
color. -/
def floodNeighborsGo (fill : Int → Int → Int → FloodState → FloodState) :
    List Coord → Int → FloodState → FloodState
  | [], _, st => st
  | nb :: rest, color, st =>
    floodNeighborsGo fill rest color
      (if st.colors nb ≠ color then fill nb.1 nb.2 color st else st)

/-- GameMap::doFloodFill.  A negative color requests a fresh one; the tile is
colored if it is walkable (a non-walkable existing tile ends the call);
otherwise the neighbor loop runs at one less fuel. -/
def doFloodFill (gm : GameMap) (floodFillEnabled : Bool) :
    Nat → Int → Int → Int → FloodState → FloodState
  | 0, _, _, _, st => st
  | fuel + 1, x, y, color, st =>
    if !floodFillEnabled then
      st
    else
      let color' := if color < 0 then st.counter else color
      let st := if color < 0 then { st with counter := st.counter + 1 } else st
      match gm.getTile x y with
      | some t =>
        if t.passability = TileClearType.walkableTile then
          floodNeighborsGo (fun a b c s => doFloodFill gm floodFillEnabled fuel a b c s)
            (gm.neighborCoords x y) color'
            { st with colors := fun p => if p = (x, y) then color' else st.colors p }
        else
          st
      | none =>
        floodNeighborsGo (fun a b c s => doFloodFill gm floodFillEnabled fuel a b c s)
          (gm.neighborCoords x y) color' st

/-- The grid coordinates in row-major order (jj outer, ii inner), as the
enableFloodFill loops visit them. -/
def rowMajorCoords (gm : GameMap) : List Coord :=
  (List.range gm.mMapSizeY).flatMap fun (jj : Nat) =>
    (List.range gm.mMapSizeX).map fun (ii : Nat) => ((ii : Int), (jj : Int))

/-- GameMap::enableFloodFill: reset every tile's color to -1, set the enable
flag, then sweep the grid row-major, flood filling from every tile still
carrying -1 (with the default color argument -1, i.e. a fresh color). -/
def enableStep (gm : GameMap) (st : FloodState) (p : Coord) : FloodState :=
  if st.colors p = -1 then
    doFloodFill gm true (gm.mMapSizeX * gm.mMapSizeY + 2) p.1 p.2 (-1) st
  else
    st

def enableFloodFill (gm : GameMap) : FloodState :=
  (rowMajorCoords gm).foldl (enableStep gm) ⟨fun _ => -1, 0⟩

/-- One step of walkable adjacency: both tiles walkable (hence existing) and
one cardinal grid step apart. -/
def walkAdj (gm : GameMap) (p q : Coord) : Prop :=
  gm.passabilityAt p = TileClearType.walkableTile ∧
    gm.passabilityAt q = TileClearType.walkableTile ∧
    q ∈ gm.neighborCoords p.1 p.2

/-- Walkable reachability: tiles connected by a chain of walkable steps. -/
def walkReach (gm : GameMap) (p q : Coord) : Prop :=
  Relation.ReflTransGen (walkAdj gm) p q

/-! ### Properties of the flood fill (claim C2) -/

/-- A walkable coordinate carries an existing tile (a missing tile reads as
impassable). -/
theorem walkable_exists (gm : GameMap) (p : Coord)
    (h : gm.passabilityAt p = TileClearType.walkableTile) :
    (gm.getTile p.1 p.2).isSome = true := by
  unfold GameMap.passabilityAt at h
  cases hg : gm.getTile p.1 p.2 with
  | none => rw [hg] at h; simp at h
  | some t => rfl

/-- Walkable adjacency is symmetric. -/
theorem walkAdj_symm (gm : GameMap) (p q : Coord) (h : walkAdj gm p q) :
    walkAdj gm q p :=
  ⟨h.2.1, h.1, neighborCoords_symm gm p q h.2.2 (walkable_exists gm p h.1)⟩

/-- Walkable reachability is symmetric. -/
theorem walkReach_symm (gm : GameMap) (p q : Coord) (h : walkReach gm p q) :
    walkReach gm q p := by
  induction h with
  | refl => exact Relation.ReflTransGen.refl
  | tail hstep hadj ih =>
    exact Relation.ReflTransGen.head (walkAdj_symm gm _ _ hadj) ih

/-- Unfolding doFloodFill one level for a non-negative color: no fresh color
is drawn and the counter bump is skipped. -/
theorem doFloodFill_nonneg_unfold (gm : GameMap) (fuel : Nat) (x y c : Int)
    (st : FloodState) (hc : 0 ≤ c) :
    doFloodFill gm true (fuel + 1) x y c st =
      match gm.getTile x y with
      | some t =>
        if t.passability = TileClearType.walkableTile then
          floodNeighborsGo (fun a b c s => doFloodFill gm true fuel a b c s)
            (gm.neighborCoords x y) c
            ⟨fun p => if p = (x, y) then c else st.colors p, st.counter⟩
        else st
      | none =>
        floodNeighborsGo (fun a b c s => doFloodFill gm true fuel a b c s)
          (gm.neighborCoords x y) c st := by
  have h1 : ¬ c < 0 := not_lt.mpr hc
  simp only [doFloodFill, Bool.not_true, Bool.false_eq_true, if_false, if_neg h1]

/-- Unfolding doFloodFill one level for the fresh-color request -1: the color
becomes the current counter value and the counter is bumped. -/
theorem doFloodFill_fresh (gm : GameMap) (fuel : Nat) (x y : Int)
    (st : FloodState) (hc : 0 ≤ st.counter) :
    doFloodFill gm true (fuel + 1) x y (-1) st =
      doFloodFill gm true (fuel + 1) x y st.counter ⟨st.colors, st.counter + 1⟩ := by
  have h1 : ¬ st.counter < 0 := not_lt.mpr hc
  have h2 : (-1 : Int) < 0 := by decide
  simp only [doFloodFill, Bool.not_true, Bool.false_eq_true, if_false, if_pos h2, if_neg h1]

/-- The writes discipline of a flood-fill call with a non-negative color: the
counter is untouched and every changed tile now carries the fill color, is
walkable, and is walkable-reachable from the call's (then walkable) start. -/
def FillSound (gm : GameMap) (fill : Int → Int → Int → FloodState → FloodState) : Prop :=
  ∀ x y c st, (gm.getTile x y).isSome = true → 0 ≤ c →
    (fill x y c st).counter = st.counter ∧
    ∀ p, (fill x y c st).colors p ≠ st.colors p →
      (fill x y c st).colors p = c ∧
      gm.passabilityAt p = TileClearType.walkableTile ∧
      gm.passabilityAt (x, y) = TileClearType.walkableTile ∧
      walkReach gm (x, y) p

/-- The neighbor loop inherits the writes discipline: every change is a tile
colored c, walkable and reachable from some walkable list element. -/
theorem floodNeighborsGo_sound (gm : GameMap)
    (fill : Int → Int → Int → FloodState → FloodState) (hf : FillSound gm fill)
    (l : List Coord) (c : Int) (st : FloodState)
    (hex : ∀ nb ∈ l, (gm.getTile nb.1 nb.2).isSome = true) (hc : 0 ≤ c) :
    (floodNeighborsGo fill l c st).counter = st.counter ∧
    ∀ p, (floodNeighborsGo fill l c st).colors p ≠ st.colors p →
      (floodNeighborsGo fill l c st).colors p = c ∧
      gm.passabilityAt p = TileClearType.walkableTile ∧
      ∃ nb ∈ l, gm.passabilityAt nb = TileClearType.walkableTile ∧
        walkReach gm nb p := by
  induction l generalizing st with
  | nil => exact ⟨rfl, fun p hp => absurd rfl hp⟩
  | cons nb rest ih =>
    have hnb : (gm.getTile nb.1 nb.2).isSome = true := hex nb (List.mem_cons_self nb rest)
    have hex' : ∀ q ∈ rest, (gm.getTile q.1 q.2).isSome = true :=
      fun q hq => hex q (List.mem_cons_of_mem nb hq)
    have hunfold : floodNeighborsGo fill (nb :: rest) c st
        = floodNeighborsGo fill rest c
            (if st.colors nb ≠ c then fill nb.1 nb.2 c st else st) := rfl
    rw [hunfold]
    set st1 := if st.colors nb ≠ c then fill nb.1 nb.2 c st else st with hst1
    have hstep : st1.counter = st.counter ∧
        ∀ p, st1.colors p ≠ st.colors p →
          st1.colors p = c ∧ gm.passabilityAt p = TileClearType.walkableTile ∧
          gm.passabilityAt nb = TileClearType.walkableTile ∧ walkReach gm nb p := by
      rw [hst1]
      split
      · exact hf nb.1 nb.2 c st hnb hc
      · exact ⟨rfl, fun p hp => absurd rfl hp⟩
    obtain ⟨hrc, hrw⟩ := ih st1 hex'
    refine ⟨hrc.trans hstep.1, fun p hp => ?_⟩
    by_cases hch : (floodNeighborsGo fill rest c st1).colors p = st1.colors p
    · have hne : st1.colors p ≠ st.colors p := fun h => hp (hch.trans h)
      obtain ⟨h1, h2, h3, h4⟩ := hstep.2 p hne
      exact ⟨hch.trans h1, h2, nb, List.mem_cons_self nb rest, h3, h4⟩
    · obtain ⟨h1, h2, nb', hnb', h3, h4⟩ := hrw p hch
      exact ⟨h1, h2, nb', List.mem_cons_of_mem nb hnb', h3, h4⟩

/-- doFloodFill obeys the writes discipline at every fuel. -/
theorem doFloodFill_sound (gm : GameMap) :
    ∀ fuel, FillSound gm (fun a b c s => doFloodFill gm true fuel a b c s) := by
  intro fuel
  induction fuel with
  | zero => exact fun x y c st _ _ => ⟨rfl, fun p hp => absurd rfl hp⟩
  | succ fuel ih =>
    intro x y c st hex hc
    dsimp only
    rw [doFloodFill_nonneg_unfold gm fuel x y c st hc]
    obtain ⟨t, hg⟩ := Option.isSome_iff_exists.mp hex
    rw [hg]
    dsimp only
    by_cases hw : t.passability = TileClearType.walkableTile
    · rw [if_pos hw]
      have hwxy : gm.passabilityAt (x, y) = TileClearType.walkableTile := by
        unfold GameMap.passabilityAt
        rw [hg]
        exact hw
      set st0 : FloodState := ⟨fun p => if p = (x, y) then c else st.colors p, st.counter⟩
        with hst0
      obtain ⟨hrc, hrw⟩ := floodNeighborsGo_sound gm
        (fun a b c s => doFloodFill gm true fuel a b c s) ih
        (gm.neighborCoords x y) c st0
        (fun nb hnb => mem_neighborCoords_exists gm x y nb hnb) hc
      refine ⟨hrc.trans rfl, fun p hp => ?_⟩
      by_cases hch : (floodNeighborsGo (fun a b c s => doFloodFill gm true fuel a b c s)
          (gm.neighborCoords x y) c st0).colors p = st0.colors p
      · have hne : st0.colors p ≠ st.colors p := fun h => hp (hch.trans h)
        rw [hst0] at hne
        simp only at hne
        by_cases hpe : p = (x, y)
        · rw [if_pos hpe] at hne
          refine ⟨?_, ?_, hwxy, ?_⟩
          · rw [hch, hst0]
            simp only
            rw [if_pos hpe]
          · rw [hpe]; exact hwxy
          · rw [hpe]; exact Relation.ReflTransGen.refl
        · rw [if_neg hpe] at hne
          exact absurd rfl hne
      · obtain ⟨h1, h2, nb, hnb, h3, h4⟩ := hrw p hch
        refine ⟨h1, h2, hwxy, ?_⟩
        exact Relation.ReflTransGen.head ⟨hwxy, h3, hnb⟩ h4
    · rw [if_neg hw]
      exact ⟨rfl, fun p hp => absurd rfl hp⟩

/-- A tile already carrying the fill color keeps it. -/
theorem doFloodFill_persist (gm : GameMap) (fuel : Nat) (x y c : Int)
    (st : FloodState) (hex : (gm.getTile x y).isSome = true) (hc : 0 ≤ c)
    (p : Coord) (hp : st.colors p = c) :
    (doFloodFill gm true fuel x y c st).colors p = c := by
  by_cases hch : (doFloodFill gm true fuel x y c st).colors p = st.colors p
  · exact hch.trans hp
  · exact ((doFloodFill_sound gm fuel x y c st hex hc).2 p hch).1

/-- The coordinates of the existing tiles, as a finite set. -/
def gridFinset (gm : GameMap) : Finset Coord :=
  (Finset.range gm.mMapSizeX ×ˢ Finset.range gm.mMapSizeY).image
    (fun p => ((p.1 : Int), (p.2 : Int)))

theorem mem_gridFinset (gm : GameMap) (p : Coord) :
    p ∈ gridFinset gm ↔ (gm.getTile p.1 p.2).isSome = true := by
  unfold gridFinset GameMap.getTile
  simp only [Finset.mem_image, Finset.mem_product, Finset.mem_range, Prod.exists]
  constructor
  · rintro ⟨a, b, ⟨ha, hb⟩, rfl⟩
    rw [if_pos ⟨by omega, by show (a : Int) < _; exact_mod_cast ha,
      by omega, by show (b : Int) < _; exact_mod_cast hb⟩]
    rfl
  · intro h
    by_cases hb : 0 ≤ p.1 ∧ p.1 < (gm.mMapSizeX : Int) ∧ 0 ≤ p.2 ∧ p.2 < (gm.mMapSizeY : Int)
    · refine ⟨p.1.toNat, p.2.toNat, ⟨by omega, by omega⟩, ?_⟩
      obtain ⟨p1, p2⟩ := p
      simp only [Prod.mk.injEq]
      exact ⟨by omega, by omega⟩
    · rw [if_neg hb] at h
      simp at h

/-- The number of existing walkable tiles not yet carrying the color c: the
measure that bounds the depth of the flood-fill recursion. -/
def uncoloredCount (gm : GameMap) (c : Int) (st : FloodState) : Nat :=
  ((gridFinset gm).filter
    (fun p => gm.passabilityAt p = TileClearType.walkableTile ∧ st.colors p ≠ c)).card

/-- Writes that only install the color c never increase the measure. -/
theorem uncoloredCount_mono (gm : GameMap) (c : Int) (st st' : FloodState)
    (h : ∀ p, st'.colors p ≠ st.colors p → st'.colors p = c) :
    uncoloredCount gm c st' ≤ uncoloredCount gm c st := by
  apply Finset.card_le_card
  intro p hp
  rw [Finset.mem_filter] at hp ⊢
  refine ⟨hp.1, hp.2.1, fun heq => ?_⟩
  by_cases hch : st'.colors p = st.colors p
  · exact hp.2.2 (hch.trans heq)
  · exact hp.2.2 (h p hch)

/-- Coloring an existing walkable tile that was not yet colored strictly
decreases the measure. -/
theorem uncoloredCount_color_lt (gm : GameMap) (c : Int) (st : FloodState)
    (w : Coord) (hex : (gm.getTile w.1 w.2).isSome = true)
    (hw : gm.passabilityAt w = TileClearType.walkableTile)
    (hu : st.colors w ≠ c) :
    uncoloredCount gm c ⟨fun p => if p = w then c else st.colors p, st.counter⟩
      < uncoloredCount gm c st := by
  have hsub : ((gridFinset gm).filter
        (fun p => gm.passabilityAt p = TileClearType.walkableTile ∧
          (if p = w then c else st.colors p) ≠ c))
      ⊆ ((gridFinset gm).filter
        (fun p => gm.passabilityAt p = TileClearType.walkableTile ∧ st.colors p ≠ c)) := by
    intro p hp
    rw [Finset.mem_filter] at hp ⊢
    refine ⟨hp.1, hp.2.1, fun heq => ?_⟩
    by_cases hpe : p = w
    · rw [if_pos hpe] at hp
      exact hp.2.2 rfl
    · rw [if_neg hpe] at hp
      exact hp.2.2 heq
  apply Finset.card_lt_card
  rw [Finset.ssubset_iff_of_subset hsub]
  refine ⟨w, ?_, ?_⟩
  · rw [Finset.mem_filter]
    exact ⟨(mem_gridFinset gm w).mpr hex, hw, hu⟩
  · rw [Finset.mem_filter]
    intro hmem
    apply hmem.2.2
    rw [if_pos rfl]

/-- The measure is at most the tile count of the grid. -/
theorem uncoloredCount_le (gm : GameMap) (c : Int) (st : FloodState) :
    uncoloredCount gm c st ≤ gm.mMapSizeX * gm.mMapSizeY := by
  refine le_trans (Finset.card_filter_le _ _) ?_
  unfold gridFinset
  refine le_trans Finset.card_image_le ?_
  rw [Finset.card_product, Finset.card_range, Finset.card_range]

/-- Completeness of one flood-fill call at a given fuel: when the fuel is at
least the number of uncolored walkable tiles, the call colors its (walkable)
start tile and saturates: every tile it newly colors ends with all its
walkable neighbors colored as well. -/
def FillComplete (gm : GameMap) (fuel : Nat) : Prop :=
  ∀ x y c st, 0 ≤ c → (gm.getTile x y).isSome = true →
    (gm.passabilityAt (x, y) = TileClearType.walkableTile → st.colors (x, y) ≠ c) →
    uncoloredCount gm c st ≤ fuel →
    (gm.passabilityAt (x, y) = TileClearType.walkableTile →
      (doFloodFill gm true fuel x y c st).colors (x, y) = c) ∧
    ∀ u, st.colors u ≠ c → (doFloodFill gm true fuel x y c st).colors u = c →
      ∀ v ∈ gm.neighborCoords u.1 u.2,
        gm.passabilityAt v = TileClearType.walkableTile →
          (doFloodFill gm true fuel x y c st).colors v = c

/-- The neighbor loop inherits completeness: colors persist, newly colored
tiles are saturated, and every walkable list element ends colored. -/
theorem floodNeighborsGo_complete (gm : GameMap) (fuel : Nat)
    (hcomp : FillComplete gm fuel)
    (l : List Coord) (c : Int) (st : FloodState)
    (hex : ∀ nb ∈ l, (gm.getTile nb.1 nb.2).isSome = true) (hc : 0 ≤ c)
    (hm : uncoloredCount gm c st ≤ fuel) :
    (∀ p, st.colors p = c →
      (floodNeighborsGo (fun a b c s => doFloodFill gm true fuel a b c s) l c st).colors p = c) ∧
    (∀ u, st.colors u ≠ c →
      (floodNeighborsGo (fun a b c s => doFloodFill gm true fuel a b c s) l c st).colors u = c →
      ∀ v ∈ gm.neighborCoords u.1 u.2,
        gm.passabilityAt v = TileClearType.walkableTile →
          (floodNeighborsGo (fun a b c s => doFloodFill gm true fuel a b c s) l c st).colors v = c) ∧
    (∀ nb ∈ l, gm.passabilityAt nb = TileClearType.walkableTile →
      (floodNeighborsGo (fun a b c s => doFloodFill gm true fuel a b c s) l c st).colors nb = c) := by
  induction l generalizing st with
  | nil =>
    refine ⟨fun p hp => hp, fun u hu hc2 => absurd hc2 hu, fun nb hnb => absurd hnb ?_⟩
    exact List.not_mem_nil nb
  | cons nb rest ih =>
    have hnb : (gm.getTile nb.1 nb.2).isSome = true := hex nb (List.mem_cons_self nb rest)
    have hex' : ∀ q ∈ rest, (gm.getTile q.1 q.2).isSome = true :=
      fun q hq => hex q (List.mem_cons_of_mem nb hq)
    have hunfold : floodNeighborsGo (fun a b c s => doFloodFill gm true fuel a b c s)
          (nb :: rest) c st
        = floodNeighborsGo (fun a b c s => doFloodFill gm true fuel a b c s) rest c
            (if st.colors nb ≠ c then doFloodFill gm true fuel nb.1 nb.2 c st else st) := rfl
    rw [hunfold]
    set st1 := if st.colors nb ≠ c then doFloodFill gm true fuel nb.1 nb.2 c st else st
      with hst1
    have hpersist1 : ∀ p, st.colors p = c → st1.colors p = c := by
      intro p hp
      rw [hst1]
      split
      · exact doFloodFill_persist gm fuel nb.1 nb.2 c st hnb hc p hp
      · exact hp
    have hwrites1 : ∀ p, st1.colors p ≠ st.colors p → st1.colors p = c := by
      intro p hp
      rw [hst1] at hp ⊢
      revert hp
      split
      · intro hp
        exact ((doFloodFill_sound gm fuel nb.1 nb.2 c st hnb hc).2 p hp).1
      · intro hp
        exact absurd rfl hp
    have hsat1 : ∀ u, st.colors u ≠ c → st1.colors u = c →
        ∀ v ∈ gm.neighborCoords u.1 u.2,
          gm.passabilityAt v = TileClearType.walkableTile → st1.colors v = c := by
      intro u hu hc2 v hv hwv
      rw [hst1] at hc2 ⊢
      revert hc2
      split
      · intro hc2
        next hguard =>
        exact (hcomp nb.1 nb.2 c st hc hnb (fun _ => hguard) hm).2 u hu hc2 v hv hwv
      · intro hc2
        exact absurd hc2 hu
    have hcol1 : gm.passabilityAt nb = TileClearType.walkableTile → st1.colors nb = c := by
      intro hwnb
      rw [hst1]
      split
      · next hguard =>
        exact (hcomp nb.1 nb.2 c st hc hnb (fun _ => hguard) hm).1 hwnb
      · next hguard =>
        exact not_not.mp hguard
    have hm1 : uncoloredCount gm c st1 ≤ fuel :=
      le_trans (uncoloredCount_mono gm c st st1 hwrites1) hm
    obtain ⟨ihp, ihs, ihc⟩ := ih st1 hex' hm1
    refine ⟨fun p hp => ihp p (hpersist1 p hp), ?_, ?_⟩
    · intro u hu hc2 v hv hwv
      by_cases h1 : st1.colors u = c
      · exact ihp v (hsat1 u hu h1 v hv hwv)
      · exact ihs u h1 hc2 v hv hwv
    · intro q hq hwq
      rcases List.mem_cons.mp hq with rfl | hq'
      · exact ihp q (hcol1 hwq)
      · exact ihc q hq' hwq

/-- doFloodFill is complete at every fuel. -/
theorem doFloodFill_complete (gm : GameMap) : ∀ fuel, FillComplete gm fuel := by
  intro fuel
  induction fuel with
  | zero =>
    intro x y c st hc hex H hm
    constructor
    · intro hwxy
      exfalso
      have hmem : (x, y) ∈ (gridFinset gm).filter
          (fun p => gm.passabilityAt p = TileClearType.walkableTile ∧ st.colors p ≠ c) := by
        rw [Finset.mem_filter]
        exact ⟨(mem_gridFinset gm (x, y)).mpr hex, hwxy, H hwxy⟩
      have : 0 < uncoloredCount gm c st := Finset.card_pos.mpr ⟨(x, y), hmem⟩
      omega
    · intro u hu hc2
      exact absurd hc2 hu
  | succ fuel ih =>
    intro x y c st hc hex H hm
    rw [doFloodFill_nonneg_unfold gm fuel x y c st hc]
    obtain ⟨t, hg⟩ := Option.isSome_iff_exists.mp hex
    rw [hg]
    dsimp only
    by_cases hw : t.passability = TileClearType.walkableTile
    · rw [if_pos hw]
      have hwxy : gm.passabilityAt (x, y) = TileClearType.walkableTile := by
        unfold GameMap.passabilityAt
        rw [hg]
        exact hw
      set st0 : FloodState := ⟨fun p => if p = (x, y) then c else st.colors p, st.counter⟩
        with hst0
      have hm0 : uncoloredCount gm c st0 ≤ fuel := by
        have := uncoloredCount_color_lt gm c st (x, y) hex hwxy (H hwxy)
        rw [hst0]
        omega
      obtain ⟨hfp, hfs, hfc⟩ := floodNeighborsGo_complete gm fuel ih
        (gm.neighborCoords x y) c st0
        (fun q hq => mem_neighborCoords_exists gm x y q hq) hc hm0
      have hxy0 : st0.colors (x, y) = c := by
        show (if ((x, y) : Coord) = (x, y) then c else st.colors (x, y)) = c
        rw [if_pos rfl]
      refine ⟨fun _ => hfp (x, y) hxy0, ?_⟩
      intro u hu hc2 v hv hwv
      by_cases hue : u = (x, y)
      · subst hue
        exact hfc v hv hwv
      · have hu0 : st0.colors u ≠ c := by
          rw [hst0]
          simp only
          rw [if_neg hue]
          exact hu
        exact hfs u hu0 hc2 v hv hwv
    · rw [if_neg hw]
      have hnwxy : gm.passabilityAt (x, y) ≠ TileClearType.walkableTile := by
        unfold GameMap.passabilityAt
        rw [hg]
        exact hw
      exact ⟨fun h => absurd h hnwxy, fun u hu hc2 => absurd hc2 hu⟩

theorem mem_rowMajorCoords (gm : GameMap) (p : Coord) :
    p ∈ rowMajorCoords gm ↔ (gm.getTile p.1 p.2).isSome = true := by
  constructor
  · intro h
    unfold rowMajorCoords at h
    rw [List.mem_flatMap] at h
    obtain ⟨jj, hjj, h2⟩ := h
    rw [List.mem_map] at h2
    obtain ⟨ii, hii, heq⟩ := h2
    rw [List.mem_range] at hjj hii
    subst heq
    unfold GameMap.getTile
    rw [if_pos ⟨by omega, by show (ii : Int) < _; exact_mod_cast hii,
      by omega, by show (jj : Int) < _; exact_mod_cast hjj⟩]
    rfl
  · intro h
    have hb : 0 ≤ p.1 ∧ p.1 < (gm.mMapSizeX : Int) ∧ 0 ≤ p.2 ∧ p.2 < (gm.mMapSizeY : Int) := by
      by_contra hb
      unfold GameMap.getTile at h
      rw [if_neg hb] at h
      simp at h
    obtain ⟨h1, h2, h3, h4⟩ := hb
    unfold rowMajorCoords
    rw [List.mem_flatMap]
    refine ⟨p.2.toNat, by rw [List.mem_range]; omega, ?_⟩
    rw [List.mem_map]
    refine ⟨p.1.toNat, by rw [List.mem_range]; omega, ?_⟩
    rw [Int.toNat_of_nonneg h1, Int.toNat_of_nonneg h3]

/-- The invariant of the enableFloodFill sweep: the counter is non-negative,
every colored tile is walkable with a non-negative color below the counter,
equal colors imply walkable reachability, and colors are saturated under
walkable reachability. -/
structure EnableInv (gm : GameMap) (st : FloodState) : Prop where
  counter_nonneg : 0 ≤ st.counter
  colored_shape : ∀ p : Coord, st.colors p ≠ -1 →
    gm.passabilityAt p = TileClearType.walkableTile ∧
      0 ≤ st.colors p ∧ st.colors p < st.counter
  color_sound : ∀ p q : Coord, st.colors p ≠ -1 → st.colors q = st.colors p →
    walkReach gm p q
  color_complete : ∀ p q : Coord, st.colors p ≠ -1 → walkReach gm p q →
    st.colors q = st.colors p

/-- One fresh flood-fill call from an uncolored tile preserves the sweep
invariant, never touches previously colored tiles, and colors its start tile
when that tile is walkable. -/
theorem floodCall_inv (gm : GameMap) (st : FloodState) (p0 : Coord) (F : Nat)
    (hex : (gm.getTile p0.1 p0.2).isSome = true) (hinv : EnableInv gm st)
    (hg : st.colors p0 = -1)
    (hm : uncoloredCount gm st.counter ⟨st.colors, st.counter + 1⟩ ≤ F + 1) :
    EnableInv gm (doFloodFill gm true (F + 1) p0.1 p0.2 st.counter
        ⟨st.colors, st.counter + 1⟩) ∧
      (∀ p, st.colors p ≠ -1 →
        (doFloodFill gm true (F + 1) p0.1 p0.2 st.counter
          ⟨st.colors, st.counter + 1⟩).colors p = st.colors p) ∧
      (gm.passabilityAt p0 = TileClearType.walkableTile →
        (doFloodFill gm true (F + 1) p0.1 p0.2 st.counter
          ⟨st.colors, st.counter + 1⟩).colors p0 ≠ -1) := by
  have hc0 : (0 : Int) ≤ st.counter := hinv.counter_nonneg
  set c := st.counter with hcdef
  set st' : FloodState := ⟨st.colors, st.counter + 1⟩ with hst'
  set res := doFloodFill gm true (F + 1) p0.1 p0.2 c st' with hres
  have hfresh : ∀ u, st'.colors u ≠ c := by
    intro u
    show st.colors u ≠ c
    by_cases hu : st.colors u = -1
    · rw [hu]; omega
    · have h2 := (hinv.colored_shape u hu).2.2
      omega
  have hsound := doFloodFill_sound gm (F + 1) p0.1 p0.2 c st' hex hc0
  have hcounter : res.counter = st.counter + 1 := hsound.1
  have hwrites : ∀ p, res.colors p ≠ st.colors p →
      res.colors p = c ∧ gm.passabilityAt p = TileClearType.walkableTile ∧
        gm.passabilityAt p0 = TileClearType.walkableTile ∧ walkReach gm p0 p :=
    fun p hp => hsound.2 p hp
  have hold : ∀ q, st.colors q ≠ -1 → res.colors q = st.colors q := by
    intro q hq
    by_cases hch : res.colors q = st.colors q
    · exact hch
    · exfalso
      obtain ⟨h1, h2, h3, h4⟩ := hwrites q hch
      have h6 : st.colors p0 = st.colors q :=
        hinv.color_complete q p0 hq (walkReach_symm gm p0 q h4)
      rw [hg] at h6
      exact hq h6.symm
  by_cases hw : gm.passabilityAt p0 = TileClearType.walkableTile
  · have hcomp := doFloodFill_complete gm (F + 1) p0.1 p0.2 c st' hc0 hex
      (fun _ => by show st.colors p0 ≠ c; rw [hg]; omega) hm
    have ha : res.colors p0 = c := hcomp.1 hw
    have hsat : ∀ u, st'.colors u ≠ c → res.colors u = c →
        ∀ v ∈ gm.neighborCoords u.1 u.2,
          gm.passabilityAt v = TileClearType.walkableTile → res.colors v = c :=
      hcomp.2
    have hRfwd : ∀ q, res.colors q = c → walkReach gm p0 q := by
      intro q hq
      by_cases hch : res.colors q = st.colors q
      · exact absurd (hch.symm.trans hq) (hfresh q)
      · exact (hwrites q hch).2.2.2
    have hRbwd : ∀ q, walkReach gm p0 q → res.colors q = c := by
      intro q hreach
      induction hreach with
      | refl => exact ha
      | @tail b q2 hstep hadj ih =>
        exact hsat b (hfresh b) ih q2 hadj.2.2 hadj.2.1
    have hnotc : ∀ p, res.colors p ≠ -1 → res.colors p ≠ c →
        res.colors p = st.colors p ∧ st.colors p ≠ -1 := by
      intro p h1 h2
      by_cases hch : res.colors p = st.colors p
      · exact ⟨hch, fun h => h1 (hch.trans h)⟩
      · exact absurd (hwrites p hch).1 h2
    refine ⟨⟨?_, ?_, ?_, ?_⟩, hold, fun _ => ?_⟩
    · rw [hcounter]; omega
    · intro q hq
      by_cases hqc : res.colors q = c
      · by_cases hch : res.colors q = st.colors q
        · exact absurd (hch.symm.trans hqc) (hfresh q)
        · exact ⟨(hwrites q hch).2.1, by rw [hqc]; omega, by rw [hqc, hcounter]; omega⟩
      · obtain ⟨hch, hold1⟩ := hnotc q hq hqc
        obtain ⟨s1, s2, s3⟩ := hinv.colored_shape q hold1
        exact ⟨s1, by rw [hch]; omega, by rw [hch, hcounter]; omega⟩
    · intro p q hp heq
      by_cases hpc : res.colors p = c
      · exact Relation.ReflTransGen.trans (walkReach_symm gm p0 p (hRfwd p hpc))
          (hRfwd q (heq.trans hpc))
      · obtain ⟨hch, hold1⟩ := hnotc p hp hpc
        have hqc : res.colors q ≠ c := fun h => hpc ((heq.symm.trans h) ▸ rfl)
        have hqch : res.colors q = st.colors q := by
          by_cases h : res.colors q = st.colors q
          · exact h
          · exact absurd (hwrites q h).1 hqc
        exact hinv.color_sound p q hold1 (hqch.symm.trans (heq.trans hch))
    · intro p q hp hreach
      by_cases hpc : res.colors p = c
      · rw [hpc]
        exact hRbwd q (Relation.ReflTransGen.trans (hRfwd p hpc) hreach)
      · obtain ⟨hch, hold1⟩ := hnotc p hp hpc
        have h2 : st.colors q = st.colors p := hinv.color_complete p q hold1 hreach
        have h3 : st.colors q ≠ -1 := by rw [h2]; exact hold1
        rw [hold q h3, h2, hch]
    · rw [ha]; omega
  · have hres_eq : res = st' := by
      rw [hres, doFloodFill_nonneg_unfold gm F p0.1 p0.2 c st' hc0]
      obtain ⟨t, hgt⟩ := Option.isSome_iff_exists.mp hex
      rw [hgt]
      dsimp only
      rw [if_neg ?hnw]
      case hnw =>
        intro h
        exact hw (by unfold GameMap.passabilityAt; rw [hgt]; exact h)
    rw [hres_eq]
    refine ⟨⟨?_, ?_, ?_, ?_⟩, fun p _ => rfl, fun hww => absurd hww hw⟩
    · show (0 : Int) ≤ st.counter + 1; omega
    · intro q hq
      obtain ⟨s1, s2, s3⟩ := hinv.colored_shape q hq
      exact ⟨s1, s2, by show st.colors q < st.counter + 1; omega⟩
    · exact hinv.color_sound
    · exact hinv.color_complete

/-- One step of the enableFloodFill sweep preserves the invariant, never
recolors an already colored tile, and leaves a walkable step tile colored. -/
theorem enableStep_inv (gm : GameMap) (st : FloodState) (p0 : Coord)
    (hex : (gm.getTile p0.1 p0.2).isSome = true) (hinv : EnableInv gm st) :
    EnableInv gm (enableStep gm st p0) ∧
      (∀ p, st.colors p ≠ -1 → (enableStep gm st p0).colors p = st.colors p) ∧
      (gm.passabilityAt p0 = TileClearType.walkableTile →
        (enableStep gm st p0).colors p0 ≠ -1) := by
  by_cases hg : st.colors p0 = -1
  · have hstep_eq : enableStep gm st p0
        = doFloodFill gm true (gm.mMapSizeX * gm.mMapSizeY + 1 + 1) p0.1 p0.2 st.counter
            ⟨st.colors, st.counter + 1⟩ := by
      unfold enableStep
      rw [if_pos hg]
      exact doFloodFill_fresh gm (gm.mMapSizeX * gm.mMapSizeY + 1) p0.1 p0.2 st
        hinv.counter_nonneg
    rw [hstep_eq]
    exact floodCall_inv gm st p0 (gm.mMapSizeX * gm.mMapSizeY + 1) hex hinv hg
      (le_trans (uncoloredCount_le gm st.counter ⟨st.colors, st.counter + 1⟩) (by omega))
  · have hstep_eq : enableStep gm st p0 = st := by
      unfold enableStep
      rw [if_neg hg]
    rw [hstep_eq]
    exact ⟨hinv, fun p _ => rfl, fun _ => hg⟩

/-- Folding the sweep step over any list of existing coordinates preserves
the invariant and never recolors an already colored tile. -/
theorem enableFold_inv (gm : GameMap) (l : List Coord)
    (hex : ∀ p ∈ l, (gm.getTile p.1 p.2).isSome = true) (st : FloodState)
    (hinv : EnableInv gm st) :
    EnableInv gm (l.foldl (enableStep gm) st) ∧
      ∀ p, st.colors p ≠ -1 → (l.foldl (enableStep gm) st).colors p = st.colors p := by
  induction l generalizing st with
  | nil => exact ⟨hinv, fun p _ => rfl⟩
  | cons q rest ih =>
    have hq : (gm.getTile q.1 q.2).isSome = true := hex q (List.mem_cons_self q rest)
    have hex' : ∀ r ∈ rest, (gm.getTile r.1 r.2).isSome = true :=
      fun r hr => hex r (List.mem_cons_of_mem q hr)
    obtain ⟨hinv1, hold1, _⟩ := enableStep_inv gm st q hq hinv
    obtain ⟨hinv2, hold2⟩ := ih hex' (enableStep gm st q) hinv1
    refine ⟨hinv2, fun p hp => ?_⟩
    rw [List.foldl_cons, hold2 p (by rw [hold1 p hp]; exact hp), hold1 p hp]

/-- The sweep invariant holds for the final flood-fill state. -/
theorem enableFloodFill_inv (gm : GameMap) : EnableInv gm (enableFloodFill gm) := by
  unfold enableFloodFill
  refine (enableFold_inv gm (rowMajorCoords gm)
    (fun p hp => (mem_rowMajorCoords gm p).mp hp) ⟨fun _ => -1, 0⟩ ?_).1
  exact ⟨le_refl 0, fun p hp => absurd rfl hp, fun p q hp => absurd rfl hp,
    fun p q hp => absurd rfl hp⟩

/-- Every existing walkable tile ends the sweep colored. -/
theorem enableFloodFill_covers (gm : GameMap) (p : Coord)
    (hw : gm.passabilityAt p = TileClearType.walkableTile) :
    (enableFloodFill gm).colors p ≠ -1 := by
  have hex : (gm.getTile p.1 p.2).isSome = true := walkable_exists gm p hw
  have hmem : p ∈ rowMajorCoords gm := (mem_rowMajorCoords gm p).mpr hex
  obtain ⟨l1, l2, hsplit⟩ := List.append_of_mem hmem
  have hex_all : ∀ q ∈ rowMajorCoords gm, (gm.getTile q.1 q.2).isSome = true :=
    fun q hq => (mem_rowMajorCoords gm q).mp hq
  have hinv0 : EnableInv gm ⟨fun _ => -1, 0⟩ :=
    ⟨le_refl 0, fun r hr => absurd rfl hr, fun r s hr => absurd rfl hr,
      fun r s hr => absurd rfl hr⟩
  unfold enableFloodFill
  rw [hsplit, List.foldl_append]
  have hex1 : ∀ q ∈ l1, (gm.getTile q.1 q.2).isSome = true :=
    fun q hq => hex_all q (by rw [hsplit]; exact List.mem_append_left _ hq)
  obtain ⟨hinv1, _⟩ := enableFold_inv gm l1 hex1 ⟨fun _ => -1, 0⟩ hinv0
  rw [List.foldl_cons]
  obtain ⟨hinv2, _, hcol⟩ := enableStep_inv gm (l1.foldl (enableStep gm) ⟨fun _ => -1, 0⟩)
    p hex hinv1
  have hex2 : ∀ q ∈ l2, (gm.getTile q.1 q.2).isSome = true :=
    fun q hq => hex_all q (by
      rw [hsplit]
      exact List.mem_append_right _ (List.mem_cons_of_mem p hq))
  obtain ⟨_, hold2⟩ := enableFold_inv gm l2 hex2 _ hinv2
  rw [hold2 p (hcol hw)]
  exact hcol hw

/-- A 2 by 1 grid of solid rock: both tiles exist and neither is walkable. -/
def rockGrid : GameMap :=
  { mMapSizeX := 2
    mMapSizeY := 1
    tileAt := fun _ _ => ⟨TileClearType.impassableTile, false, fun _ => false⟩ }

/-- Claim C2, counterexample to the original statement: on the 2 by 1
all-rock grid both tiles exist, enableFloodFill leaves both at the unassigned
color -1, and the fast-path check of pathExists(walkable) then compares
-1 == -1 and returns true, although the two non-walkable tiles are not
walkable-reachable from each other (no walkable tile exists at all).  So
non-walkable tiles ARE matched by the fast-path check, against the claim. -/
theorem C2_fastpath_matches_unreachable :
    (rockGrid.getTile 0 0).isSome = true ∧ (rockGrid.getTile 1 0).isSome = true ∧
    (enableFloodFill rockGrid).colors (0, 0) = -1 ∧
    (enableFloodFill rockGrid).colors (1, 0) = -1 ∧
    rockGrid.pathExists true (enableFloodFill rockGrid).colors 0 0 1 0
      TileClearType.walkableTile 0 = true ∧
    ¬ walkReach rockGrid (0, 0) (1, 0) := by
  refine ⟨rfl, rfl, by decide, by decide, by decide, ?_⟩
  intro h
  rcases Relation.ReflTransGen.cases_head h with heq | ⟨w, hadj, _⟩
  · exact absurd heq (by decide)
  · exact absurd hadj.1 (by decide)

/-- Claim C2 (amended): after enableFloodFill on an unchanged grid, for every
pair of existing WALKABLE tiles, pathExists with the walkable class returns
true if and only if the two tiles are walkable-reachable from each other, and
every non-walkable coordinate is left with the unassigned color -1.  (The
original claim's "non-walkable tiles are never matched by the fast-path
check" is false: two non-walkable existing tiles both carry -1 and compare
equal, see the counterexample.) -/
theorem C2_floodFill_partition (gm : GameMap) (p q : Coord)
    (hp : gm.passabilityAt p = TileClearType.walkableTile)
    (hq : gm.passabilityAt q = TileClearType.walkableTile) :
    (gm.pathExists true (enableFloodFill gm).colors p.1 p.2 q.1 q.2
        TileClearType.walkableTile 0 = true ↔ walkReach gm p q) ∧
    ∀ r : Coord, gm.passabilityAt r ≠ TileClearType.walkableTile →
      (enableFloodFill gm).colors r = -1 := by
  have hinv := enableFloodFill_inv gm
  have hexp : (gm.getTile p.1 p.2).isSome = true := walkable_exists gm p hp
  have hexq : (gm.getTile q.1 q.2).isSome = true := walkable_exists gm q hq
  obtain ⟨tp, hgp⟩ := Option.isSome_iff_exists.mp hexp
  obtain ⟨tq, hgq⟩ := Option.isSome_iff_exists.mp hexq
  constructor
  · have hpe : gm.pathExists true (enableFloodFill gm).colors p.1 p.2 q.1 q.2
        TileClearType.walkableTile 0
        = ((enableFloodFill gm).colors p == (enableFloodFill gm).colors q) := by
      unfold GameMap.pathExists walkablePathExists
      rw [if_pos (by rfl), hgp, hgq]
    rw [hpe, beq_iff_eq]
    constructor
    · intro heq
      exact hinv.color_sound p q (enableFloodFill_covers gm p hp) heq.symm
    · intro hreach
      exact (hinv.color_complete p q (enableFloodFill_covers gm p hp) hreach).symm
  · intro r hr
    by_contra hcol
    exact hr (hinv.colored_shape r hcol).1

/-- Witness for C2 on the fully open 2 by 1 grid: both endpoints walkable,
instantiating the amended theorem. -/
theorem C2_floodFill_partition_witness :
    (openGrid 2 1).passabilityAt (0, 0) = TileClearType.walkableTile ∧
    (openGrid 2 1).passabilityAt (1, 0) = TileClearType.walkableTile ∧
    (((openGrid 2 1).pathExists true (enableFloodFill (openGrid 2 1)).colors 0 0 1 0
        TileClearType.walkableTile 0 = true ↔ walkReach (openGrid 2 1) (0, 0) (1, 0)) ∧
      ∀ r : Coord, (openGrid 2 1).passabilityAt r ≠ TileClearType.walkableTile →
        (enableFloodFill (openGrid 2 1)).colors r = -1) :=
  ⟨by decide, by decide,
    C2_floodFill_partition (openGrid 2 1) (0, 0) (1, 0) (by decide) (by decide)⟩

end OD
